import Mathlib

/-!
Shallow embedding of the core of mikispag/dns-over-tls-forwarder:

* the keyed priority store (proxy/internal/specialized/store.go),
* the dual-store LRU+MFA cache (specialized cache.go) with its metrics
  (specialized metrics.go),
* the DNS-aware cache wrapper (proxy/cache.go),
* the per-pool resolve task of the forwarding engine (proxy/server.go).

Go machine integers: the cache clock is a 64-bit `uint`; it is modelled as
a `Nat` reduced modulo `2^64` exactly where the Go code can wrap (the
`c.t++` tick in `Cache.now`).  Go `interface{}` values (`Value`) are
modelled as `Option α`, `none` playing the role of a nil interface (the
zero `item` has a nil `v`, which is what `Cache.Put` tests for).
Loops of container/heap are modelled with an explicit fuel argument that
is always given enough fuel for the loop to run to completion; this keeps
every definition computable by the kernel.
-/

namespace DotF

/-! ### Go map[string]int (the store's lookup map `m`) -/

/-- Lookup in the association-list model of Go's `map[string]int`. -/
def mLookup (m : List (String × Nat)) (k : String) : Option Nat :=
  match m with
  | [] => none
  | (k2, i) :: rest => if k2 = k then some i else mLookup rest k

/-- Map write `m[k] = i`. -/
def mSet (m : List (String × Nat)) (k : String) (i : Nat) : List (String × Nat) :=
  match m with
  | [] => [(k, i)]
  | (k2, j) :: rest => if k2 = k then (k, i) :: rest else (k2, j) :: mSet rest k i

/-- Map delete `delete(m, k)`. -/
def mDel (m : List (String × Nat)) (k : String) : List (String × Nat) :=
  match m with
  | [] => []
  | (k2, j) :: rest => if k2 = k then mDel rest k else (k2, j) :: mDel rest k

/-! ### store.go: item and store -/

/-- Entry of the store (`item` in store.go).  `v` is Go's `Value`
(an `interface{}`): `none` is a nil interface. -/
structure Item (α : Type) where
  key : String
  v : Option α
  t : Nat
  a : Nat
  index : Int
deriving Repr, DecidableEq

/-- Zero value of `item` (what an empty `evicted` return carries). -/
def Item.zero {α : Type} : Item α := ⟨"", none, 0, 0, 0⟩

/-- The key, value, time, and access count of an item — everything except
the heap bookkeeping `index`. -/
def Item.data {α : Type} (it : Item α) : String × Option α × Nat × Nat :=
  (it.key, it.v, it.t, it.a)

/-- Comparison mode of a store (`cmpBy`): `byTime` is the LRU mode,
`byAccesses` the MFA mode. -/
inductive CmpBy
  | byTime
  | byAccesses
deriving Repr, DecidableEq

/-- The bounded keyed priority queue (`store` in store.go).  `capacity`
models `cap(c.pq)`, fixed by `make([]item, 0, size)`. -/
structure Store (α : Type) where
  pq : List (Item α)
  m : List (String × Nat)
  cmp : CmpBy
  capacity : Nat
deriving Repr, DecidableEq

/-- Constructor `newStore(size, cmp)`. -/
def newStore {α : Type} (size : Nat) (cmp : CmpBy) : Store α :=
  { pq := [], m := [], cmp := cmp, capacity := size }

/-- Ordering `store.less`. -/
def Store.less {α : Type} (c : Store α) (x y : Item α) : Bool :=
  match c.cmp with
  | .byTime => if x.t ≠ y.t then decide (x.t < y.t) else decide (x.a < y.a)
  | .byAccesses => if x.a ≠ y.a then decide (x.a < y.a) else decide (x.t < y.t)

/-- Heap-interface `Less(i, j)` (`store.Less`). -/
def Store.lessAt {α : Type} (c : Store α) (i j : Nat) : Bool :=
  c.less (c.pq.getD i Item.zero) (c.pq.getD j Item.zero)

/-- Heap-interface `Swap(i, j)` (`store.Swap`): swaps the two slots,
rewrites their `index` fields and the two map entries. -/
def Store.swapIdx {α : Type} (c : Store α) (i j : Nat) : Store α :=
  let xi := c.pq.getD i Item.zero
  let xj := c.pq.getD j Item.zero
  let pq1 := (c.pq.set i { xj with index := (i : Int) }).set j { xi with index := (j : Int) }
  let m1 := mSet (mSet c.m xj.key i) xi.key j
  { c with pq := pq1, m := m1 }

/-- Sift-up loop of container/heap's `up(h, j)`.  Fuel bounds the number
of iterations; `Store.up` supplies enough for the loop to finish. -/
def Store.upFuel {α : Type} (c : Store α) (j fuel : Nat) : Store α :=
  match fuel with
  | 0 => c
  | fuel + 1 =>
    let i := (j - 1) / 2
    if i = j then c
    else if c.lessAt j i then Store.upFuel (c.swapIdx i j) i fuel
    else c

/-- container/heap `up(h, j)`. -/
def Store.up {α : Type} (c : Store α) (j : Nat) : Store α :=
  c.upFuel j (j + 1)

/-- Sift-down loop of container/heap's `down(h, i0, n)`; returns the final
index alongside the store. -/
def Store.downFuel {α : Type} (c : Store α) (i n fuel : Nat) : Store α × Nat :=
  match fuel with
  | 0 => (c, i)
  | fuel + 1 =>
    let j1 := 2 * i + 1
    if n ≤ j1 then (c, i)
    else
      let j := if decide (2 * i + 2 < n) && c.lessAt (2 * i + 2) j1 then 2 * i + 2 else j1
      if c.lessAt j i then Store.downFuel (c.swapIdx i j) j n fuel
      else (c, i)

/-- container/heap `down(h, i0, n)`; the Bool is Go's `i > i0` result. -/
def Store.down {α : Type} (c : Store α) (i0 n : Nat) : Store α × Bool :=
  let r := c.downFuel i0 n (n + 1)
  (r.1, decide (i0 < r.2))

/-- Heap-interface `Push` (`store.Push`): append with index/map upkeep. -/
def Store.pushIface {α : Type} (c : Store α) (x : Item α) : Store α :=
  let n := c.pq.length
  { c with pq := c.pq ++ [{ x with index := (n : Int) }], m := mSet c.m x.key n }

/-- Heap-interface `Pop` (`store.Pop`): removes and returns the last slot.
Go panics on an empty store; that case is never reached under the
hypotheses used below and is mapped to a no-op returning the zero item. -/
def Store.popIface {α : Type} (c : Store α) : Store α × Item α :=
  match c.pq.getLast? with
  | none => (c, Item.zero)
  | some it => ({ c with pq := c.pq.dropLast, m := mDel c.m it.key }, { it with index := -1 })

/-- container/heap `Push(h, x)`. -/
def Store.heapPush {α : Type} (c : Store α) (x : Item α) : Store α :=
  let c1 := c.pushIface x
  c1.up (c1.pq.length - 1)

/-- container/heap `Pop(h)`. -/
def Store.heapPop {α : Type} (c : Store α) : Store α × Item α :=
  let n := c.pq.length - 1
  let c1 := c.swapIdx 0 n
  let c2 := (c1.down 0 n).1
  c2.popIface

/-- container/heap `Fix(h, i)`. -/
def Store.heapFix {α : Type} (c : Store α) (i : Nat) : Store α :=
  let r := c.down i c.pq.length
  if r.2 then r.1 else r.1.up i

/-- Length `store.Len`. -/
def Store.len {α : Type} (c : Store α) : Nat := c.pq.length

/-- Capacity `store.cap`. -/
def Store.capFn {α : Type} (c : Store α) : Nat := c.capacity

/-- Minimum access `store.peek` (Go panics on an empty store; the zero
item stands in for that unreachable case). -/
def Store.peekIt {α : Type} (c : Store α) : Item α := c.pq.headD Item.zero

/-- In-place touch `store.updateUnchecked`. -/
def Store.updateUnchecked {α : Type} (c : Store α) (now i : Nat) (v : Option α)
    (startCount : Nat) : Store α :=
  let it := c.pq.getD i Item.zero
  let c1 := { c with pq := c.pq.set i { it with v := v, a := it.a + startCount, t := now } }
  c1.heapFix i

/-- Lookup `store.get(now, key)`: on a hit, bumps `a`, refreshes `t`. -/
def Store.get {α : Type} (c : Store α) (now : Nat) (key : String) :
    (Option α × Bool) × Store α :=
  match mLookup c.m key with
  | none => ((none, false), c)
  | some i =>
    let v := (c.pq.getD i Item.zero).v
    ((v, true), c.updateUnchecked now i v 1)

/-- Insert `store.put(now, key, v, startCount)`; the second component is
the `evicted` item (the zero item when nothing was evicted, the bounced
candidate itself when the candidate lost against the minimum). -/
def Store.put {α : Type} (c : Store α) (now : Nat) (key : String) (v : Option α)
    (startCount : Nat) : Store α × Item α :=
  match mLookup c.m key with
  | some i => (c.updateUnchecked now i v startCount, Item.zero)
  | none =>
    let it : Item α := { key := key, v := v, t := now, a := startCount, index := 0 }
    if c.pq.length = c.capacity then
      if 0 < c.pq.length ∧ c.less it c.peekIt then
        (c, it)
      else
        let r := c.heapPop
        (r.1.heapPush it, r.2)
    else
      (c.heapPush it, Item.zero)

/-- Touch-only `store.update(now, key, v)`. -/
def Store.update {α : Type} (c : Store α) (now : Nat) (key : String) (v : Option α) :
    Bool × Store α :=
  match mLookup c.m key with
  | none => (false, c)
  | some i => (true, c.updateUnchecked now i v 1)

/-- Pop loop of the `byTime` branch of `store.reset`: repeatedly pops the
source store, assigning dense fresh times, building the clone. -/
def Store.resetPopLoop {α : Type} (c acc : Store α) (k i fuel : Nat) : Store α × Nat :=
  match fuel with
  | 0 => (acc, k)
  | fuel + 1 =>
    let r := c.heapPop
    let ii := { r.2 with t := k, index := (i : Int) }
    Store.resetPopLoop r.1
      { acc with pq := acc.pq ++ [ii], m := mSet acc.m ii.key i } (k + 1) (i + 1) fuel

/-- Countdown loop of container/heap `Init(h)`: `down` on `i-1, ..., 0`. -/
def Store.heapInitAux {α : Type} (c : Store α) (i : Nat) : Store α :=
  match i with
  | 0 => c
  | i + 1 => Store.heapInitAux ((c.down i c.pq.length).1) i

/-- container/heap `Init(h)`. -/
def Store.heapInit {α : Type} (c : Store α) : Store α :=
  c.heapInitAux (c.pq.length / 2)

/-- Wraparound handler `store.reset(start)`: the MFA zeroes all times,
the LRU is rebuilt with dense strictly-increasing times in popped order
(note Go builds the clone with `newStore(len(c.pq), c.cmp)`). -/
def Store.reset {α : Type} (c : Store α) (start : Nat) : Store α × Nat :=
  match c.cmp with
  | .byAccesses => ({ c with pq := c.pq.map (fun it => { it with t := 0 }) }, start)
  | .byTime =>
    let c2 : Store α := newStore c.pq.length c.cmp
    let r := Store.resetPopLoop c c2 start 0 c.pq.length
    (r.1.heapInit, r.2)

/-! ### metrics.go -/

/-- Public counters (`Metrics` in metrics.go). -/
structure Metrics where
  HitMFA : Nat
  MissMFA : Nat
  HitLRU : Nat
  MissLRU : Nat
  Miss : Nat
  RecentlyEvictedMiss : Nat
deriving Repr, DecidableEq

/-- Total hits `Metrics.Hit`. -/
def Metrics.Hit (m : Metrics) : Nat := m.HitMFA + m.HitLRU

/-- Total accesses `Metrics.Tot`. -/
def Metrics.Tot (m : Metrics) : Nat := m.Hit + m.Miss

/-- Internal metrics state (`metrics` in metrics.go): the embedded public
counters plus the recently-evicted ring.  `store = none` models a nil
slice (evict metrics disabled); `storeCap` is the slice capacity. -/
structure MState where
  M : Metrics
  store : Option (List String)
  storeCap : Nat
  pos : Nat
  header : List String
deriving Repr, DecidableEq

/-- Constructor `newMetrics(bufsize, evictMetrics)`. -/
def newMetrics (bufsize : Nat) (evictMetrics : Bool) : MState :=
  if !evictMetrics then
    { M := ⟨0, 0, 0, 0, 0, 0⟩, store := none, storeCap := 0, pos := 0, header := [] }
  else
    { M := ⟨0, 0, 0, 0, 0, 0⟩, store := some [], storeCap := bufsize, pos := 0, header := [] }

/-- Counter bump `metrics.hitMFA`. -/
def MState.hitMFA (m : MState) : MState := { m with M := { m.M with HitMFA := m.M.HitMFA + 1 } }

/-- Counter bump `metrics.hitLRU`. -/
def MState.hitLRU (m : MState) : MState := { m with M := { m.M with HitLRU := m.M.HitLRU + 1 } }

/-- Counter bump `metrics.missMFA`. -/
def MState.missMFA (m : MState) : MState := { m with M := { m.M with MissMFA := m.M.MissMFA + 1 } }

/-- Counter bump `metrics.missLRU`. -/
def MState.missLRU (m : MState) : MState := { m with M := { m.M with MissLRU := m.M.MissLRU + 1 } }

/-- Set insertion into the `header` lookup map (`m.header[k] = struct{}{}`). -/
def headerAdd (h : List String) (k : String) : List String :=
  if h.contains k then h else k :: h

/-- Set removal `delete(m.header, k)`. -/
def headerDel (h : List String) (k : String) : List String :=
  h.filter (fun x => x != k)

/-- Global-miss record `metrics.miss(k)`. -/
def MState.missK (m : MState) (k : String) : MState :=
  let m1 := { m with M := { m.M with Miss := m.M.Miss + 1 } }
  match m1.store with
  | none => m1
  | some _ =>
    if m1.header.contains k then
      { m1 with M := { m1.M with RecentlyEvictedMiss := m1.M.RecentlyEvictedMiss + 1 } }
    else m1

/-- Eviction record `metrics.evict(k)`: writes `k` into the ring. -/
def MState.evict (m : MState) (k : String) : MState :=
  match m.store with
  | none => m
  | some s =>
    if s.length < m.storeCap then
      { m with store := some (s ++ [k]), pos := s.length, header := headerAdd m.header k }
    else
      let pos2 := (m.pos + 1) % m.storeCap
      let old := s.getD pos2 ""
      { m with pos := pos2, store := some (s.set pos2 k),
               header := headerAdd (headerDel m.header old) k }

/-! ### cache.go: the dual LRU+MFA cache -/

/-- Wraparound modulus of the Go 64-bit `uint` clock. -/
def uintMod : Nat := 2 ^ 64

/-- Compile-time constant `maxsize = ^uint(0) >> 1`. -/
def maxsize : Nat := 2 ^ 63 - 1

/-- The dual-store cache (`Cache` in cache.go).  The mutex is immaterial
to a sequential model; the optional `timeNow` override (`SetTimer`) is
not modelled — only the builtin tick-per-operation clock, which is the
code path the server uses. -/
structure Cache (α : Type) where
  lru : Store α
  mfa : Store α
  t : Nat
  capacity : Nat
  m : MState
deriving Repr, DecidableEq

/-- Constructor `NewCache(size, evictMetrics)`.  Go returns `(nil, nil)`
for `size <= 0` (a usable no-op nil cache) and an error for `size == 1`
or an oversized `size`; all three cases are collapsed to `none` here, so
`some` is exactly successful construction of a real cache. -/
def NewCache (α : Type) (size : Int) (evictMetrics : Bool) : Option (Cache α) :=
  if size ≤ 0 then none
  else if size < 2 then none
  else if maxsize < size.toNat then none
  else some
    { lru := newStore (size.toNat / 2) .byTime
      mfa := newStore (size.toNat / 2 + size.toNat % 2) .byAccesses
      t := 0
      capacity := size.toNat
      m := newMetrics size.toNat evictMetrics }

/-- Clock tick of `Cache.now()`: `c.t++` with 64-bit wraparound; a wrap
to zero runs `reset` on both stores.  After the tick, `c.t` is the value
`now()` returns. -/
def Cache.tickClock {α : Type} (c : Cache α) : Cache α :=
  let t2 := (c.t + 1) % uintMod
  if t2 = 0 then
    let rl := c.lru.reset t2
    let rm := c.mfa.reset rl.2
    { c with lru := rl.1, mfa := rm.1, t := rm.2 }
  else { c with t := t2 }

/-- Lookup `Cache.Get(k)`: MFA first, then LRU, recording the metric of
the branch taken. -/
def Cache.Get {α : Type} (c0 : Cache α) (k : String) : (Option α × Bool) × Cache α :=
  let c := c0.tickClock
  let now := c.t
  let rm := c.mfa.get now k
  let c := { c with mfa := rm.2 }
  if rm.1.2 then ((rm.1.1, true), { c with m := c.m.hitMFA })
  else
    let c := { c with m := c.m.missMFA }
    let rl := c.lru.get now k
    let c := { c with lru := rl.2 }
    if rl.1.2 then ((rl.1.1, true), { c with m := c.m.hitLRU })
    else ((none, false), { c with m := (c.m.missLRU).missK k })

/-- Insertion `Cache.Put(k, v)` with the full LRU→MFA promotion /
MFA→LRU demotion cascade of cache.go. -/
def Cache.Put {α : Type} (c0 : Cache α) (k : String) (v : Option α) : Cache α :=
  let c := c0.tickClock
  let now := c.t
  let um := c.mfa.update now k v
  let c := { c with mfa := um.2 }
  if um.1 then c else
  let ul := c.lru.update now k v
  let c := { c with lru := ul.2 }
  if ul.1 then c else
  let rl := c.lru.put now k v 1
  let lruovf := rl.2
  let c := { c with lru := rl.1 }
  if lruovf.v.isNone then c else
  if c.mfa.len < c.mfa.capFn then
    let rm := c.mfa.put now lruovf.key lruovf.v lruovf.a
    { c with mfa := rm.1 }
  else
  if c.mfa.peekIt.a > lruovf.a ∨ (c.mfa.peekIt.a = lruovf.a ∧ c.mfa.peekIt.t < lruovf.t) then
    { c with m := c.m.evict lruovf.key }
  else
  let rm := c.mfa.put now lruovf.key lruovf.v lruovf.a
  let mfaovf := rm.2
  let c := { c with mfa := rm.1 }
  if mfaovf.v.isNone then c else
  if c.lru.len ≤ 0 ∨ c.lru.peekIt.a ≥ mfaovf.a then
    { c with m := c.m.evict mfaovf.key }
  else
  let rl2 := c.lru.put now mfaovf.key mfaovf.v 1
  let lruovf2 := rl2.2
  let c := { c with lru := rl2.1 }
  if lruovf2.v.isNone then c else
  { c with m := c.m.evict lruovf2.key }

/-- Size `Cache.Len()`. -/
def Cache.lenC {α : Type} (c : Cache α) : Nat := c.lru.len + c.mfa.len

/-- Capacity `Cache.Cap()`. -/
def Cache.capC {α : Type} (c : Cache α) : Nat := c.lru.capFn + c.mfa.capFn

/-- Snapshot `Cache.Metrics()`. -/
def Cache.metricsC {α : Type} (c : Cache α) : Metrics := c.m.M

/-- One external cache operation, for stating reachability. -/
inductive CacheOp (α : Type)
  | get (k : String)
  | put (k : String) (v : Option α)
deriving Repr, DecidableEq

/-- Application of one operation. -/
def execOp {α : Type} (c : Cache α) : CacheOp α → Cache α
  | .get k => (Cache.Get c k).2
  | .put k v => Cache.Put c k v

/-- Application of a sequence of operations. -/
def runOps {α : Type} (c : Cache α) (ops : List (CacheOp α)) : Cache α :=
  ops.foldl execOp c

/-- Number of `get` operations in a sequence. -/
def countGets {α : Type} (ops : List (CacheOp α)) : Nat :=
  ops.countP (fun op => match op with | .get _ => true | .put _ _ => false)

/-! ### proxy/cache.go: the DNS-aware wrapper

DNS messages (`dns.Msg`) are modelled with the fields the wrapper reads
or writes: id, rcode, the truncation and compression flags, the question
section (each question as its canonical `String()` rendering, which is
what `key` uses) and the answer section (per record: the header TTL and
an opaque rendering of the rest).  Wall-clock instants and durations are
nanosecond counts (`time.Time` / `time.Duration`); `Seconds()`-style
float arithmetic is modelled exactly, with truncating division.  Each
wrapper call receives the current instant `now` as a parameter, standing
for the `time.Now().UTC()` reads of the call. -/

/-- One answer-section resource record: its header TTL (seconds) and the
rest of the record, opaque to the wrapper. -/
structure RR where
  ttl : Nat
  rest : String
deriving Repr, DecidableEq

/-- The slice of `dns.Msg` the wrapper manipulates. -/
structure Msg where
  id : Nat
  rcode : Nat
  truncated : Bool
  compress : Bool
  question : List String
  answer : List RR
deriving Repr, DecidableEq

/-- Stored cache value (`cacheValue`): message plus absolute expiry. -/
structure CacheValue where
  m : Msg
  exp : Nat
deriving Repr, DecidableEq

/-- The wrapper struct (`cache` in proxy/cache.go); the nil-receiver
no-op paths are not modelled (the server always holds a non-nil cache
when the claims below apply). -/
structure PCache where
  c : Cache CacheValue
deriving Repr, DecidableEq

/-- Nanoseconds per second, for `time.Duration` arithmetic. -/
def nsPerSec : Nat := 1000000000

/-- Policy floor `minTTL = 5 * time.Minute`, in seconds. -/
def minTTLsecs : Nat := 300

/-- Cap `maxTTL = 2147483647 * time.Second`, in seconds. -/
def maxTTLsecs : Nat := 2147483647

/-- Cache key `key(m) = m.Question[0].String()`.  Go panics when the
question section is empty; theorems below assume a nonempty question. -/
def msgKey (m : Msg) : String := m.question.headD ""

/-- Wrapper lookup `cache.get(mk)`.  On a hit the stored message is
copied, its id rewritten to the query's; a soft-expired entry comes back
with every answer TTL forced to 60 and `false`, a fresh one with TTLs
rewritten from the remaining lifetime (floored at `minTTL`) and `true`. -/
def PCache.get (pc : PCache) (now : Nat) (mk : Msg) : (Option Msg × Bool) × PCache :=
  let k := msgKey mk
  let r := Cache.Get pc.c k
  let pc2 : PCache := ⟨r.2⟩
  match r.1.1, r.1.2 with
  | some v, true =>
    let mv := { v.m with id := mk.id }
    if v.exp < now then
      ((some { mv with answer := mv.answer.map (fun a => { a with ttl := 60 }) }, false), pc2)
    else
      let ttl0 := (v.exp - now) / nsPerSec
      let ttl := if ttl0 < minTTLsecs then minTTLsecs else ttl0
      ((some { mv with answer := mv.answer.map (fun a => { a with ttl := ttl }) }, true), pc2)
  | _, _ => ((none, false), pc2)

/-- Wrapper insertion `cache.put(k, v)`: errors are never cached; the
expiry is `now` plus the smallest answer TTL (each floored at `minTTL`),
defaulting to `now + maxTTL` when there is no answer; the stored copy is
normalized (truncation cleared, compression enabled). -/
def PCache.put (pc : PCache) (now : Nat) (k v : Msg) : PCache :=
  let minExpirationTime := now + maxTTLsecs * nsPerSec
  let cacheKey := msgKey k
  if v.rcode ≠ 0 then pc
  else
    let minExpirationTime := v.answer.foldl
      (fun acc a =>
        let ttl := a.ttl * nsPerSec
        let ttl := if ttl < minTTLsecs * nsPerSec then minTTLsecs * nsPerSec else ttl
        let exp := now + ttl
        if exp < acc then exp else acc)
      minExpirationTime
    let cm := { v with truncated := false, compress := true }
    ⟨Cache.Put pc.c cacheKey (some ⟨cm, minExpirationTime⟩)⟩

/-! ### proxy/server.go: the per-pool resolve task

In `Server.forwardMessageAndGetResponse`, each pool gets a goroutine

  r, err := s.exchangeMessages(ctx, p, q)
  if err != nil || r == nil { resps <- nil }
  resps <- r

The channel sends that one task performs are a pure function of the
`exchangeMessages` outcome, modelled here as the list of sent values. -/

/-- Values one resolve task sends on `resps`, given the outcome
`(r, err)` of its `exchangeMessages` call (`errOccurred` is
`err != nil`). -/
def taskSends (r : Option Msg) (errOccurred : Bool) : List (Option Msg) :=
  (if errOccurred || r.isNone then [none] else []) ++ [r]

/-! ### Concrete fixtures used by witnesses and counterexamples -/

/-- The cache `NewCache(4, false)` builds (LRU and MFA capacity 2 each). -/
def cacheN4 : Cache Nat :=
  { lru := newStore 2 CmpBy.byTime
    mfa := newStore 2 CmpBy.byAccesses
    t := 0
    capacity := 4
    m := newMetrics 4 false }

/-- The cache `NewCache(2, false)` builds (LRU and MFA capacity 1 each). -/
def cacheS2 : Cache String :=
  { lru := newStore 1 CmpBy.byTime
    mfa := newStore 1 CmpBy.byAccesses
    t := 0
    capacity := 2
    m := newMetrics 2 false }

/-- An operation sequence after which the next `Put` pushes its fresh key
through the full demotion cascade of a capacity-2 cache and loses it. -/
def c5ops : List (CacheOp String) :=
  [CacheOp.put "A" (some "a"), CacheOp.put "B" (some "b"), CacheOp.get "A",
   CacheOp.get "B", CacheOp.get "B"]

/-- Operations after which, in the capacity-2 cache, the next `Put`'s
LRU overflow `E` and the MFA minimum have equal access counts with the
MFA minimum strictly newer — the spec's drop condition. -/
def c1ops : List (CacheOp String) :=
  [CacheOp.put "A" (some "a"), CacheOp.put "B" (some "b"), CacheOp.get "B", CacheOp.get "A"]

/-- Operations after which the MFA minimum has strictly more accesses
than the next `Put`'s LRU overflow, so the code's drop branch fires. -/
def c1wops : List (CacheOp String) :=
  [CacheOp.put "A" (some "a"), CacheOp.put "B" (some "b"), CacheOp.get "A", CacheOp.get "A"]

/-- The cache `NewCache(4, false)` over `CacheValue`, as the wrapper's
`newCache(4, false)` builds. -/
def cacheCV4 : Cache CacheValue :=
  { lru := newStore 2 CmpBy.byTime
    mfa := newStore 2 CmpBy.byAccesses
    t := 0
    capacity := 4
    m := newMetrics 4 false }

/-- A fresh wrapper cache over `cacheCV4`. -/
def pcW : PCache := ⟨cacheCV4⟩

/-- A question message. -/
def qW : Msg :=
  { id := 7, rcode := 0, truncated := false, compress := false, question := ["qexample"]
    answer := [] }

/-- A NOERROR response with one answer record of TTL 100 seconds. -/
def rW : Msg :=
  { id := 3, rcode := 0, truncated := false, compress := true, question := ["qexample"]
    answer := [{ ttl := 100, rest := "A 1.2.3.4" }] }

/-- A SERVFAIL response (rcode 2). -/
def rErr : Msg := { rW with rcode := 2 }

/-- A NOERROR response with an empty answer section. -/
def rEmpty : Msg := { rW with answer := [] }

/-- The binary-heap invariant of container/heap on `pq`: no element is
`less` than its parent. -/
def Store.IsHeap {α : Type} (s : Store α) : Prop :=
  ∀ j, j < s.pq.length → 0 < j →
    s.less (s.pq.getD j Item.zero) (s.pq.getD ((j - 1) / 2) Item.zero) = false

instance {α : Type} (s : Store α) : Decidable s.IsHeap := by
  unfold Store.IsHeap
  infer_instance

/-- The sum of the three counters of the metric identity. -/
def mSum (m : MState) : Nat := m.M.HitMFA + m.M.HitLRU + m.M.Miss

/-- A full `byTime` store of capacity 2 holding A (t=1) and B (t=2). -/
def c7s : Store String :=
  (((newStore 2 CmpBy.byTime).put 1 "A" (some "a") 1).1.put 2 "B" (some "b") 1).1

/-- A full `byTime` store of capacity 1 holding A (t=1, a=1). -/
def c8s : Store String := ((newStore 1 CmpBy.byTime).put 1 "A" (some "a") 1).1

/-! ### Store well-formedness -/

/-- The store's map and heap slice are in sync: every map entry points at
a slot holding its key, every slot's key maps back to its index, and the
map has no duplicate keys. -/
def Store.Sync {α : Type} (s : Store α) : Prop :=
  (∀ p ∈ s.m, (s.pq[p.2]?.map (fun it => it.key)) = some p.1) ∧
  (∀ i < s.pq.length, (s.pq[i]?.bind (fun it => mLookup s.m it.key)) = some i) ∧
  (s.m.map Prod.fst).Nodup

/-- All stored logical times are at most `b`. -/
def Store.TBound {α : Type} (s : Store α) (b : Nat) : Prop :=
  ∀ it ∈ s.pq, it.t ≤ b

/-- The store knows key `k`. -/
def Store.hasKey {α : Type} (s : Store α) (k : String) : Prop :=
  (mLookup s.m k).isSome = true

/-- The (value, time, accesses) data a store associates with a key. -/
def Store.entry {α : Type} (s : Store α) (k : String) : Option (Option α × Nat × Nat) :=
  (mLookup s.m k).bind (fun i => s.pq[i]?.map (fun it => (it.v, it.t, it.a)))

/-- A store transformation that preserves mode, capacity, size, the
per-key data, and draws all its items' data from the source store. -/
def Pres {α : Type} (s s2 : Store α) : Prop :=
  s2.cmp = s.cmp ∧ s2.capacity = s.capacity ∧ s2.pq.length = s.pq.length ∧
  (∀ k, s2.entry k = s.entry k) ∧
  (∀ y ∈ s2.pq, ∃ z ∈ s.pq, z.data = y.data)

/-- Representation invariant of the dual-store cache, preserved by `Get`
and `Put` as long as the clock does not wrap. -/
structure CacheInv {α : Type} (c : Cache α) : Prop where
  syncL : c.lru.Sync
  syncM : c.mfa.Sync
  tbL : c.lru.TBound c.t
  tbM : c.mfa.TBound c.t
  disj : ∀ it ∈ c.lru.pq, mLookup c.mfa.m it.key = none
  lenL : c.lru.pq.length ≤ c.lru.capacity
  lenM : c.mfa.pq.length ≤ c.mfa.capacity
  cmpL : c.lru.cmp = CmpBy.byTime
  cmpM : c.mfa.cmp = CmpBy.byAccesses
  capL : 0 < c.lru.capacity
  capM : 0 < c.mfa.capacity

/-- Step postcondition shared by `Get` and `Put`: the invariant still
holds, the clock advanced by one and the capacities are unchanged. -/
def InvPost {α : Type} (c c2 : Cache α) : Prop :=
  CacheInv c2 ∧ c2.t = c.t + 1 ∧ c2.lru.capacity = c.lru.capacity ∧
    c2.mfa.capacity = c.mfa.capacity

/-- After a `Put`, key `k` holds value `v` — either in the MFA store, or
in the LRU store with `k` absent from the MFA map (so a `Get` finds it). -/
def KeyPut {α : Type} (c2 : Cache α) (k : String) (v : Option α) : Prop :=
  ∃ tt aa, c2.mfa.entry k = some (v, tt, aa) ∨
    (c2.lru.entry k = some (v, tt, aa) ∧ mLookup c2.mfa.m k = none)

/-- Full postcondition of one `Put c k v` step. -/
def PutPost {α : Type} (c c2 : Cache α) (k : String) (v : Option α) : Prop :=
  InvPost c c2 ∧ KeyPut c2 k v

/-! ## Verification layer -/

/-! ### Association-list map lemmas -/

theorem mLookup_mSet_self (m : List (String × Nat)) (k : String) (i : Nat) :
    mLookup (mSet m k i) k = some i := by
  induction m with
  | nil => simp [mSet, mLookup]
  | cons p rest ih =>
    obtain ⟨pk, pv⟩ := p
    by_cases h : pk = k
    · simp [mSet, h, mLookup]
    · simp [mSet, h, mLookup, ih]

theorem mLookup_mSet_ne (m : List (String × Nat)) (k k2 : String) (i : Nat)
    (h : k2 ≠ k) : mLookup (mSet m k i) k2 = mLookup m k2 := by
  have hk : ¬ (k = k2) := fun hh => h hh.symm
  induction m with
  | nil => simp [mSet, mLookup, hk]
  | cons p rest ih =>
    obtain ⟨pk, pv⟩ := p
    by_cases hp : pk = k
    · subst hp
      simp [mSet, mLookup, hk]
    · by_cases hp2 : pk = k2
      · subst hp2
        simp [mSet, hp, mLookup]
      · simp [mSet, hp, mLookup, hp2, ih]

theorem mLookup_mDel_self (m : List (String × Nat)) (k : String) :
    mLookup (mDel m k) k = none := by
  induction m with
  | nil => simp [mDel, mLookup]
  | cons p rest ih =>
    obtain ⟨pk, pv⟩ := p
    by_cases h : pk = k
    · simpa [mDel, h] using ih
    · simpa [mDel, h, mLookup] using ih

theorem mLookup_mDel_ne (m : List (String × Nat)) (k k2 : String) (h : k2 ≠ k) :
    mLookup (mDel m k) k2 = mLookup m k2 := by
  induction m with
  | nil => simp [mDel, mLookup]
  | cons p rest ih =>
    obtain ⟨pk, pv⟩ := p
    by_cases hp : pk = k
    · have hk2 : ¬ (k = k2) := fun hh => h hh.symm
      simpa [mDel, hp, mLookup, hk2] using ih
    · by_cases hp2 : pk = k2
      · subst hp2
        simp [mDel, hp, mLookup]
      · simpa [mDel, hp, mLookup, hp2] using ih

theorem mem_of_mLookup_eq_some {m : List (String × Nat)} {k : String} {i : Nat}
    (h : mLookup m k = some i) : (k, i) ∈ m := by
  induction m with
  | nil => simp [mLookup] at h
  | cons p rest ih =>
    obtain ⟨pk, pv⟩ := p
    by_cases hp : pk = k
    · subst hp
      simp [mLookup] at h
      subst h
      exact List.mem_cons_self _ _
    · simp [mLookup, hp] at h
      exact List.mem_cons_of_mem _ (ih h)

theorem mem_mSet_nodup {m : List (String × Nat)} {k : String} {i : Nat}
    (hnd : (m.map Prod.fst).Nodup) {p : String × Nat} (hp : p ∈ mSet m k i) :
    p = (k, i) ∨ (p ∈ m ∧ p.1 ≠ k) := by
  induction m with
  | nil =>
    simp [mSet] at hp
    exact Or.inl hp
  | cons q rest ih =>
    obtain ⟨qk, qv⟩ := q
    simp only [List.map_cons, List.nodup_cons] at hnd
    by_cases hq : qk = k
    · subst hq
      simp only [mSet, if_pos rfl] at hp
      rcases List.mem_cons.mp hp with h1 | h1
      · exact Or.inl h1
      · right
        refine ⟨List.mem_cons_of_mem _ h1, ?_⟩
        intro hcon
        exact hnd.1 (hcon ▸ List.mem_map_of_mem Prod.fst h1)
    · simp only [mSet, if_neg hq] at hp
      rcases List.mem_cons.mp hp with h1 | h1
      · subst h1
        exact Or.inr ⟨List.mem_cons_self _ _, hq⟩
      · rcases ih hnd.2 h1 with h2 | h2
        · exact Or.inl h2
        · exact Or.inr ⟨List.mem_cons_of_mem _ h2.1, h2.2⟩

theorem mem_mDel {m : List (String × Nat)} {k : String} {p : String × Nat}
    (hp : p ∈ mDel m k) : p ∈ m ∧ p.1 ≠ k := by
  induction m with
  | nil => simp [mDel] at hp
  | cons q rest ih =>
    obtain ⟨qk, qv⟩ := q
    by_cases hq : qk = k
    · simp only [mDel, if_pos hq] at hp
      exact ⟨List.mem_cons_of_mem _ (ih hp).1, (ih hp).2⟩
    · simp only [mDel, if_neg hq] at hp
      rcases List.mem_cons.mp hp with h1 | h1
      · subst h1
        exact ⟨List.mem_cons_self _ _, hq⟩
      · exact ⟨List.mem_cons_of_mem _ (ih h1).1, (ih h1).2⟩

theorem mSet_nodup_keys {m : List (String × Nat)} (k : String) (i : Nat)
    (hnd : (m.map Prod.fst).Nodup) : ((mSet m k i).map Prod.fst).Nodup := by
  induction m with
  | nil => simp [mSet]
  | cons q rest ih =>
    obtain ⟨qk, qv⟩ := q
    by_cases hq : qk = k
    · subst hq
      simpa only [mSet, if_pos rfl, List.map_cons] using hnd
    · simp only [List.map_cons, List.nodup_cons] at hnd
      simp only [mSet, if_neg hq, List.map_cons, List.nodup_cons]
      refine ⟨?_, ih hnd.2⟩
      intro hcon
      rcases List.mem_map.mp hcon with ⟨p, hpmem, hpk⟩
      rcases mem_mSet_nodup hnd.2 hpmem with h1 | h1
      · exact hq (by rw [h1] at hpk; exact hpk.symm)
      · exact hnd.1 (hpk ▸ List.mem_map_of_mem Prod.fst h1.1)

theorem mDel_nodup_keys {m : List (String × Nat)} (k : String)
    (hnd : (m.map Prod.fst).Nodup) : ((mDel m k).map Prod.fst).Nodup := by
  induction m with
  | nil => simp [mDel]
  | cons q rest ih =>
    obtain ⟨qk, qv⟩ := q
    simp only [List.map_cons, List.nodup_cons] at hnd
    by_cases hq : qk = k
    · simp only [mDel, if_pos hq]
      exact ih hnd.2
    · simp only [mDel, if_neg hq, List.map_cons, List.nodup_cons]
      refine ⟨?_, ih hnd.2⟩
      intro hcon
      rcases List.mem_map.mp hcon with ⟨p, hpmem, hpk⟩
      exact hnd.1 (hpk ▸ List.mem_map_of_mem Prod.fst (mem_mDel hpmem).1)

theorem Store.Sync.lookup_spec {α : Type} {s : Store α} (hs : s.Sync) {k : String} {i : Nat}
    (h : mLookup s.m k = some i) : ∃ it, s.pq[i]? = some it ∧ it.key = k := by
  have hmem := mem_of_mLookup_eq_some h
  have := hs.1 _ hmem
  rcases Option.map_eq_some'.mp this with ⟨it, hit, hk⟩
  exact ⟨it, hit, hk⟩

theorem Store.Sync.get_spec {α : Type} {s : Store α} (hs : s.Sync) {i : Nat} {it : Item α}
    (h : s.pq[i]? = some it) : mLookup s.m it.key = some i := by
  have hlt : i < s.pq.length := by
    by_contra hcon
    rw [List.getElem?_eq_none (Nat.le_of_not_lt hcon)] at h
    exact Option.noConfusion h
  have := hs.2.1 i hlt
  rw [h] at this
  exact this

theorem Store.Sync.key_unique {α : Type} {s : Store α} (hs : s.Sync) {i j : Nat}
    {it1 it2 : Item α} (h1 : s.pq[i]? = some it1) (h2 : s.pq[j]? = some it2)
    (hk : it1.key = it2.key) : i = j := by
  have e1 := hs.get_spec h1
  have e2 := hs.get_spec h2
  rw [hk] at e1
  rw [e1] at e2
  exact Option.some_inj.mp e2

theorem Store.hasKey_iff_entry_isSome {α : Type} {s : Store α} (hs : s.Sync) (k : String) :
    s.hasKey k ↔ (s.entry k).isSome = true := by
  unfold Store.hasKey Store.entry
  cases h : mLookup s.m k with
  | none => simp
  | some i =>
    rcases hs.lookup_spec h with ⟨it, hit, _⟩
    simp [hit]

theorem Store.not_hasKey_iff {α : Type} (s : Store α) (k : String) :
    ¬ s.hasKey k ↔ mLookup s.m k = none := by
  unfold Store.hasKey
  cases h : mLookup s.m k <;> simp

theorem Store.hasKey_of_mem {α : Type} {s : Store α} (hs : s.Sync) {it : Item α}
    (h : it ∈ s.pq) : s.hasKey it.key := by
  rcases List.mem_iff_getElem?.mp h with ⟨i, hi⟩
  unfold Store.hasKey
  rw [hs.get_spec hi]
  rfl

theorem Store.mem_of_hasKey {α : Type} {s : Store α} (hs : s.Sync) {k : String}
    (h : s.hasKey k) : ∃ it ∈ s.pq, it.key = k := by
  unfold Store.hasKey at h
  cases hm : mLookup s.m k with
  | none => rw [hm] at h; simp at h
  | some i =>
    rcases hs.lookup_spec hm with ⟨it, hit, hk⟩
    exact ⟨it, List.getElem?_mem hit, hk⟩

/-! ### Preservation relation between store states -/

theorem Pres.refl {α : Type} (s : Store α) : Pres s s :=
  ⟨rfl, rfl, rfl, fun _ => rfl, fun y hy => ⟨y, hy, rfl⟩⟩

theorem Pres.trans {α : Type} {s1 s2 s3 : Store α} (h12 : Pres s1 s2) (h23 : Pres s2 s3) :
    Pres s1 s3 := by
  refine ⟨h23.1.trans h12.1, h23.2.1.trans h12.2.1, h23.2.2.1.trans h12.2.2.1,
    fun k => (h23.2.2.2.1 k).trans (h12.2.2.2.1 k), ?_⟩
  intro y hy
  rcases h23.2.2.2.2 y hy with ⟨z, hz, hd⟩
  rcases h12.2.2.2.2 z hz with ⟨w, hw, hd2⟩
  exact ⟨w, hw, hd2.trans hd⟩

theorem Store.TBound.of_pres {α : Type} {s s2 : Store α} {b : Nat}
    (hp : Pres s s2) (hb : s.TBound b) : s2.TBound b := by
  intro y hy
  rcases hp.2.2.2.2 y hy with ⟨z, hz, hd⟩
  have : z.t = y.t := congrArg (fun d => d.2.2.1) hd
  exact this ▸ hb z hz

theorem Store.TBound.mono {α : Type} {s : Store α} {b b2 : Nat}
    (hb : s.TBound b) (h : b ≤ b2) : s.TBound b2 :=
  fun it hit => le_trans (hb it hit) h

theorem Store.hasKey_iff_of_pres {α : Type} {s s2 : Store α}
    (hs : s.Sync) (hs2 : s2.Sync) (hp : Pres s s2) (k : String) :
    s2.hasKey k ↔ s.hasKey k := by
  rw [Store.hasKey_iff_entry_isSome hs, Store.hasKey_iff_entry_isSome hs2, hp.2.2.2.1 k]

theorem getD_of_getElem? {β : Type} {l : List β} {n : Nat} {x : β} (d : β)
    (h : l[n]? = some x) : l.getD n d = x := by
  simp [List.getD_eq_getElem?_getD, h]

/-! ### Swap -/

theorem swapIdx_cmp {α : Type} (s : Store α) (i j : Nat) : (s.swapIdx i j).cmp = s.cmp := rfl

theorem swapIdx_capacity {α : Type} (s : Store α) (i j : Nat) :
    (s.swapIdx i j).capacity = s.capacity := rfl

theorem swapIdx_length {α : Type} (s : Store α) (i j : Nat) :
    (s.swapIdx i j).pq.length = s.pq.length := by
  simp [Store.swapIdx]

theorem swapIdx_pq_getElem {α : Type} (s : Store α) (i j l : Nat) :
    (s.swapIdx i j).pq[l]? =
      if j = l then
        (if j < s.pq.length then some { s.pq.getD i Item.zero with index := (j : Int) } else none)
      else if i = l then
        (if i < s.pq.length then some { s.pq.getD j Item.zero with index := (i : Int) } else none)
      else s.pq[l]? := by
  simp only [Store.swapIdx, List.getElem?_set, List.length_set]

theorem swapIdx_m_lookup {α : Type} (s : Store α) (i j : Nat) (k : String) :
    mLookup (s.swapIdx i j).m k =
      if k = (s.pq.getD i Item.zero).key then some j
      else if k = (s.pq.getD j Item.zero).key then some i
      else mLookup s.m k := by
  unfold Store.swapIdx
  by_cases h1 : k = (s.pq.getD i Item.zero).key
  · simp only [if_pos h1]
    rw [h1, mLookup_mSet_self]
  · simp only [if_neg h1]
    rw [mLookup_mSet_ne _ _ _ _ h1]
    by_cases h2 : k = (s.pq.getD j Item.zero).key
    · simp only [if_pos h2]
      rw [h2, mLookup_mSet_self]
    · simp only [if_neg h2]
      exact mLookup_mSet_ne _ _ _ _ h2

theorem swapIdx_sync_pres {α : Type} {s : Store α} (hs : s.Sync) {i j : Nat}
    (hi : i < s.pq.length) (hj : j < s.pq.length) :
    (s.swapIdx i j).Sync ∧ Pres s (s.swapIdx i j) := by
  obtain ⟨xi, hgi⟩ : ∃ x, s.pq[i]? = some x := ⟨s.pq[i], List.getElem?_eq_some.mpr ⟨hi, rfl⟩⟩
  obtain ⟨xj, hgj⟩ : ∃ x, s.pq[j]? = some x := ⟨s.pq[j], List.getElem?_eq_some.mpr ⟨hj, rfl⟩⟩
  have hdi : s.pq.getD i Item.zero = xi := getD_of_getElem? _ hgi
  have hdj : s.pq.getD j Item.zero = xj := getD_of_getElem? _ hgj
  have hlenq : (s.swapIdx i j).pq.length = s.pq.length := swapIdx_length s i j
  have hmemxi : xi ∈ s.pq := List.getElem?_mem hgi
  have hmemxj : xj ∈ s.pq := List.getElem?_mem hgj
  have hlkxi : mLookup s.m xi.key = some i := hs.get_spec hgi
  have hlkxj : mLookup s.m xj.key = some j := hs.get_spec hgj
  have hkeys : i ≠ j → xi.key ≠ xj.key := by
    intro hij hcon
    exact hij (hs.key_unique hgi hgj hcon)
  have heqd : i = j → xi = xj := by
    intro hij
    rw [hij, hgj] at hgi
    exact (Option.some_inj.mp hgi).symm
  -- pointwise description of the new pq
  have hpq : ∀ l : Nat, (s.swapIdx i j).pq[l]? =
      if j = l then some { xi with index := (j : Int) }
      else if i = l then some { xj with index := (i : Int) }
      else s.pq[l]? := by
    intro l
    rw [swapIdx_pq_getElem s i j l, hdi, hdj]
    by_cases hjl : j = l
    · subst hjl
      simp [hj]
    · by_cases hil : i = l
      · subst hil
        simp [hjl, hi]
      · simp [hjl, hil]
  have hm : ∀ k, mLookup (s.swapIdx i j).m k =
      if k = xi.key then some j else if k = xj.key then some i else mLookup s.m k := by
    intro k
    rw [swapIdx_m_lookup, hdi, hdj]
  have hmeq : (s.swapIdx i j).m = mSet (mSet s.m xj.key i) xi.key j := by
    show mSet (mSet s.m (s.pq.getD j Item.zero).key i) (s.pq.getD i Item.zero).key j = _
    rw [hdi, hdj]
  -- Sync
  have hsync : (s.swapIdx i j).Sync := by
    refine ⟨?_, ?_, ?_⟩
    · intro p hp
      rw [hmeq] at hp
      have hnd1 : ((mSet s.m xj.key i).map Prod.fst).Nodup := mSet_nodup_keys _ _ hs.2.2
      rcases mem_mSet_nodup hnd1 hp with h1 | ⟨h1, h1k⟩
      · subst h1
        rw [hpq]
        simp
      · rcases mem_mSet_nodup hs.2.2 h1 with h2 | ⟨h2, h2k⟩
        · subst h2
          have hij : ¬ (i = j) := by
            intro hcon
            exact h1k (by rw [heqd hcon])
          rw [hpq]
          rw [if_neg (fun hcon : j = i => hij hcon.symm)]
          simp
        · -- an untouched entry of the old map
          have hold := hs.1 _ h2
          rcases Option.map_eq_some'.mp hold with ⟨it, hit, hkey⟩
          have hp2i : ¬ (i = p.2) := by
            intro hcon
            rw [← hcon, hgi] at hit
            cases hit
            exact h1k (hkey ▸ rfl)
          have hp2j : ¬ (j = p.2) := by
            intro hcon
            rw [← hcon, hgj] at hit
            cases hit
            exact h2k (hkey ▸ rfl)
          rw [hpq]
          simp only [if_neg hp2j, if_neg hp2i]
          exact hold
    · intro l hl
      rw [hpq l]
      by_cases hjl : j = l
      · rw [if_pos hjl]
        simp only [Option.some_bind]
        rw [hm]
        simp [hjl]
      · by_cases hil : i = l
        · rw [if_neg hjl, if_pos hil]
          simp only [Option.some_bind]
          rw [hm]
          have hne : xj.key ≠ xi.key := by
            intro hcon
            exact hkeys (fun hh : i = j => hjl (hh ▸ hil)) hcon.symm
          simp [hne, hil]
        · rw [if_neg hjl, if_neg hil]
          have hl2 : l < s.pq.length := by rw [← hlenq]; exact hl
          cases hgl : s.pq[l]? with
          | none =>
            rw [List.getElem?_eq_none_iff] at hgl
            exact absurd hgl (Nat.not_le.mpr hl2)
          | some it =>
            simp only [Option.some_bind]
            rw [hm]
            have hiti : it.key ≠ xi.key := by
              intro hcon
              exact hil (hs.key_unique hgl hgi hcon).symm
            have hitj : it.key ≠ xj.key := by
              intro hcon
              exact hjl (hs.key_unique hgl hgj hcon).symm
            simp only [if_neg hiti, if_neg hitj]
            have := hs.2.1 l hl2
            rw [hgl] at this
            exact this
    · rw [hmeq]
      exact mSet_nodup_keys _ _ (mSet_nodup_keys _ _ hs.2.2)
  refine ⟨hsync, ?_⟩
  refine ⟨rfl, rfl, hlenq, ?_, ?_⟩
  · -- entry preservation
    intro k
    unfold Store.entry
    rw [hm]
    by_cases h1 : k = xi.key
    · subst h1
      rw [hlkxi, if_pos rfl]
      simp only [Option.some_bind]
      rw [hpq j, if_pos rfl, hgi]
      rfl
    · by_cases h2 : k = xj.key
      · subst h2
        have hij : ¬ (i = j) := by
          intro hcon
          exact h1 (by rw [heqd hcon])
        rw [hlkxj, if_neg h1, if_pos rfl]
        simp only [Option.some_bind]
        rw [hpq i, if_neg (fun hcon : j = i => hij hcon.symm), if_pos rfl, hgj]
        rfl
      · rw [if_neg h1, if_neg h2]
        cases hmk : mLookup s.m k with
        | none => rfl
        | some l =>
          rcases hs.lookup_spec hmk with ⟨it, hit, hkey⟩
          have hlni : ¬ (i = l) := by
            intro hcon
            rw [← hcon, hgi] at hit
            cases hit
            exact h1 hkey.symm
          have hlnj : ¬ (j = l) := by
            intro hcon
            rw [← hcon, hgj] at hit
            cases hit
            exact h2 hkey.symm
          simp only [Option.some_bind]
          rw [hpq l, if_neg hlnj, if_neg hlni]
  · -- data inclusion
    intro y hy
    unfold Store.swapIdx at hy
    simp only at hy
    rcases List.mem_or_eq_of_mem_set hy with hy1 | hy1
    · rcases List.mem_or_eq_of_mem_set hy1 with hy2 | hy2
      · exact ⟨y, hy2, rfl⟩
      · refine ⟨xj, hmemxj, ?_⟩
        rw [hy2, hdj]
        rfl
    · refine ⟨xi, hmemxi, ?_⟩
      rw [hy1, hdi]
      rfl

/-! ### Sift loops -/

theorem upFuel_succ_eq {α : Type} (s : Store α) (j fuel : Nat) :
    s.upFuel j (fuel + 1) =
      (if (j - 1) / 2 = j then s
       else if s.lessAt j ((j - 1) / 2) then (s.swapIdx ((j - 1) / 2) j).upFuel ((j - 1) / 2) fuel
       else s) := rfl

theorem upFuel_sync_pres {α : Type} :
    ∀ (fuel : Nat) (s : Store α) (j : Nat), s.Sync → j < s.pq.length →
      (s.upFuel j fuel).Sync ∧ Pres s (s.upFuel j fuel) := by
  intro fuel
  induction fuel with
  | zero =>
    intro s j hs _
    exact ⟨hs, Pres.refl s⟩
  | succ fuel ih =>
    intro s j hs hj
    rw [upFuel_succ_eq]
    by_cases h1 : (j - 1) / 2 = j
    · simpa [h1] using ⟨hs, Pres.refl s⟩
    · have hjpos : 0 < j := by
        rcases Nat.eq_zero_or_pos j with h | h
        · exact absurd (by simp [h]) h1
        · exact h
      have hilt : (j - 1) / 2 < j :=
        Nat.lt_of_le_of_lt (Nat.div_le_self _ _) (Nat.sub_lt hjpos Nat.one_pos)
      have hi : (j - 1) / 2 < s.pq.length := Nat.lt_trans hilt hj
      by_cases h2 : s.lessAt j ((j - 1) / 2)
      · simp only [if_neg h1, if_pos h2]
        have hswap := swapIdx_sync_pres hs hi hj
        have hlen : (j - 1) / 2 < (s.swapIdx ((j - 1) / 2) j).pq.length := by
          rw [swapIdx_length]
          exact hi
        have hrec := ih (s.swapIdx ((j - 1) / 2) j) ((j - 1) / 2) hswap.1 hlen
        exact ⟨hrec.1, hswap.2.trans hrec.2⟩
      · simpa [h1, h2] using ⟨hs, Pres.refl s⟩

theorem up_sync_pres {α : Type} {s : Store α} {j : Nat} (hs : s.Sync)
    (hj : j < s.pq.length) : (s.up j).Sync ∧ Pres s (s.up j) :=
  upFuel_sync_pres (j + 1) s j hs hj

theorem downFuel_succ_eq {α : Type} (s : Store α) (i n fuel : Nat) :
    s.downFuel i n (fuel + 1) =
      (if n ≤ 2 * i + 1 then (s, i)
       else
         if s.lessAt (if decide (2 * i + 2 < n) && s.lessAt (2 * i + 2) (2 * i + 1) then 2 * i + 2
             else 2 * i + 1) i then
           (s.swapIdx i (if decide (2 * i + 2 < n) && s.lessAt (2 * i + 2) (2 * i + 1) then 2 * i + 2
             else 2 * i + 1)).downFuel
             (if decide (2 * i + 2 < n) && s.lessAt (2 * i + 2) (2 * i + 1) then 2 * i + 2
               else 2 * i + 1) n fuel
         else (s, i)) := rfl

theorem downFuel_sync_pres {α : Type} :
    ∀ (fuel : Nat) (s : Store α) (i n : Nat), s.Sync → n ≤ s.pq.length →
      (s.downFuel i n fuel).1.Sync ∧ Pres s (s.downFuel i n fuel).1 := by
  intro fuel
  induction fuel with
  | zero =>
    intro s i n hs _
    exact ⟨hs, Pres.refl s⟩
  | succ fuel ih =>
    intro s i n hs hn
    rw [downFuel_succ_eq]
    by_cases h1 : n ≤ 2 * i + 1
    · simpa [h1] using ⟨hs, Pres.refl s⟩
    · simp only [if_neg h1]
      have hj1n : 2 * i + 1 < n := Nat.lt_of_not_le h1
      set j := if decide (2 * i + 2 < n) && s.lessAt (2 * i + 2) (2 * i + 1) then 2 * i + 2
        else 2 * i + 1 with hjdef
      have hjn : j < n := by
        rw [hjdef]
        split
        · rename_i hx
          exact of_decide_eq_true (Bool.and_elim_left hx)
        · exact hj1n
      have hij : i < j := by
        rw [hjdef]
        split
        · omega
        · omega
      have hjlen : j < s.pq.length := Nat.lt_of_lt_of_le hjn hn
      have hilen : i < s.pq.length := Nat.lt_of_lt_of_le (Nat.lt_trans hij hjn) hn
      by_cases h3 : s.lessAt j i
      · simp only [if_pos h3]
        have hswap := swapIdx_sync_pres hs hilen hjlen
        have hlen2 : n ≤ (s.swapIdx i j).pq.length := by
          rw [swapIdx_length]
          exact hn
        have hrec := ih (s.swapIdx i j) j n hswap.1 hlen2
        exact ⟨hrec.1, hswap.2.trans hrec.2⟩
      · simpa [h3] using ⟨hs, Pres.refl s⟩

theorem down_sync_pres {α : Type} {s : Store α} {i n : Nat} (hs : s.Sync)
    (hn : n ≤ s.pq.length) : (s.down i n).1.Sync ∧ Pres s (s.down i n).1 :=
  downFuel_sync_pres (n + 1) s i n hs hn

theorem heapFix_sync_pres {α : Type} {s : Store α} {i : Nat} (hs : s.Sync)
    (hi : i < s.pq.length) : (s.heapFix i).Sync ∧ Pres s (s.heapFix i) := by
  unfold Store.heapFix
  have hdown := down_sync_pres (s := s) (i := i) (n := s.pq.length) hs (Nat.le_refl _)
  by_cases h : (s.down i s.pq.length).2 = true
  · simpa [h] using hdown
  · simp only [h]
    have hi2 : i < (s.down i s.pq.length).1.pq.length := by
      rw [hdown.2.2.2.1]
      exact hi
    have hup := up_sync_pres hdown.1 hi2
    simpa using ⟨hup.1, hdown.2.trans hup.2⟩

/-! ### Push and pop -/

theorem peekIt_getElem {α : Type} {s : Store α} (hne : s.pq ≠ []) :
    s.pq[0]? = some s.peekIt := by
  have hlen : 0 < s.pq.length := List.length_pos.mpr hne
  obtain ⟨it, hit⟩ : ∃ it, s.pq[0]? = some it :=
    ⟨s.pq.get ⟨0, hlen⟩, List.getElem?_eq_some.mpr ⟨hlen, rfl⟩⟩
  rw [hit]
  unfold Store.peekIt
  rw [List.headD_eq_head?_getD, List.head?_eq_getElem?, hit]
  rfl

theorem pushIface_props {α : Type} {s : Store α} (hs : s.Sync) {x : Item α}
    (habs : mLookup s.m x.key = none) :
    (s.pushIface x).Sync ∧
    (s.pushIface x).pq = s.pq ++ [{ x with index := (s.pq.length : Int) }] ∧
    (s.pushIface x).entry x.key = some (x.v, x.t, x.a) ∧
    (∀ k, k ≠ x.key → (s.pushIface x).entry k = s.entry k) := by
  have hpq : (s.pushIface x).pq = s.pq ++ [{ x with index := (s.pq.length : Int) }] := rfl
  have hmm : (s.pushIface x).m = mSet s.m x.key s.pq.length := rfl
  have hkey_old : ∀ {i : Nat} {it : Item α}, s.pq[i]? = some it → it.key ≠ x.key := by
    intro i it hit hcon
    have := hs.get_spec hit
    rw [hcon, habs] at this
    exact Option.noConfusion this
  have hlast : (s.pushIface x).pq[s.pq.length]? =
      some { x with index := (s.pq.length : Int) } := by
    rw [hpq]
    exact List.getElem?_concat_length _ _
  have hbelow : ∀ {l : Nat}, l < s.pq.length → (s.pushIface x).pq[l]? = s.pq[l]? := by
    intro l hl
    rw [hpq]
    exact List.getElem?_append_left hl
  have hsync : (s.pushIface x).Sync := by
    refine ⟨?_, ?_, ?_⟩
    · intro p hp
      rw [hmm] at hp
      rcases mem_mSet_nodup hs.2.2 hp with h1 | ⟨h1, h1k⟩
      · subst h1
        rw [hlast]
        rfl
      · have hold := hs.1 _ h1
        rcases Option.map_eq_some'.mp hold with ⟨it, hit, hk⟩
        have hl : p.2 < s.pq.length := by
          by_contra hcon
          rw [List.getElem?_eq_none (Nat.le_of_not_lt hcon)] at hit
          exact Option.noConfusion hit
        rw [hbelow hl]
        exact hold
    · intro l hl
      rw [hpq, List.length_append, List.length_singleton] at hl
      by_cases hll : l < s.pq.length
      · rw [hbelow hll]
        cases hgl : s.pq[l]? with
        | none =>
          rw [List.getElem?_eq_none_iff] at hgl
          exact absurd hgl (Nat.not_le.mpr hll)
        | some it =>
          simp only [Option.some_bind]
          rw [hmm, mLookup_mSet_ne _ _ _ _ (hkey_old hgl)]
          have := hs.2.1 l hll
          rw [hgl] at this
          exact this
      · have hleq : l = s.pq.length := by omega
        subst hleq
        rw [hlast]
        simp only [Option.some_bind]
        rw [hmm]
        exact mLookup_mSet_self _ _ _
    · rw [hmm]
      exact mSet_nodup_keys _ _ hs.2.2
  refine ⟨hsync, hpq, ?_, ?_⟩
  · unfold Store.entry
    rw [hmm, mLookup_mSet_self]
    simp only [Option.some_bind]
    rw [hlast]
    rfl
  · intro k hk
    unfold Store.entry
    rw [hmm, mLookup_mSet_ne _ _ _ _ hk]
    cases hmk : mLookup s.m k with
    | none => rfl
    | some i =>
      rcases hs.lookup_spec hmk with ⟨it, hit, _⟩
      have hl : i < s.pq.length := by
        by_contra hcon
        rw [List.getElem?_eq_none (Nat.le_of_not_lt hcon)] at hit
        exact Option.noConfusion hit
      simp only [Option.some_bind]
      rw [hbelow hl]

theorem heapPush_props {α : Type} {s : Store α} (hs : s.Sync) {x : Item α}
    (habs : mLookup s.m x.key = none) :
    (s.heapPush x).Sync ∧
    (s.heapPush x).pq.length = s.pq.length + 1 ∧
    (s.heapPush x).cmp = s.cmp ∧ (s.heapPush x).capacity = s.capacity ∧
    (s.heapPush x).entry x.key = some (x.v, x.t, x.a) ∧
    (∀ k, k ≠ x.key → (s.heapPush x).entry k = s.entry k) ∧
    (∀ y ∈ (s.heapPush x).pq, (∃ z ∈ s.pq, z.data = y.data) ∨ y.data = x.data) := by
  obtain ⟨hs1, hpq1, hx1, hk1⟩ := pushIface_props hs habs
  have hlen1 : (s.pushIface x).pq.length = s.pq.length + 1 := by
    rw [hpq1, List.length_append, List.length_singleton]
  have hcmp1 : (s.pushIface x).cmp = s.cmp := rfl
  have hcap1 : (s.pushIface x).capacity = s.capacity := rfl
  have hup := up_sync_pres hs1 (j := (s.pushIface x).pq.length - 1)
    (by rw [hlen1]; omega)
  have hhp : s.heapPush x = (s.pushIface x).up ((s.pushIface x).pq.length - 1) := rfl
  rw [hhp]
  refine ⟨hup.1, ?_, ?_, ?_, ?_, ?_, ?_⟩
  · rw [hup.2.2.2.1, hlen1]
  · rw [hup.2.1, hcmp1]
  · rw [hup.2.2.1, hcap1]
  · rw [hup.2.2.2.2.1, hx1]
  · intro k hk
    rw [hup.2.2.2.2.1, hk1 k hk]
  · intro y hy
    rcases hup.2.2.2.2.2 y hy with ⟨z, hz, hd⟩
    rw [hpq1] at hz
    rcases List.mem_append.mp hz with hz1 | hz1
    · exact Or.inl ⟨z, hz1, hd⟩
    · rcases List.mem_singleton.mp hz1 with rfl
      exact Or.inr (by rw [← hd]; rfl)

theorem less_false_of_t_gt {α : Type} {s : Store α} (hcmp : s.cmp = .byTime)
    {x y : Item α} (hyt : y.t < x.t) : s.less x y = false := by
  unfold Store.less
  rw [hcmp]
  have hne : x.t ≠ y.t := Nat.ne_of_gt hyt
  simp [hne, Nat.not_lt.mpr (Nat.le_of_lt hyt)]

theorem heapPush_append_of_fresh {α : Type} {s : Store α} (hcmp : s.cmp = .byTime)
    {x : Item α} (hmax : ∀ y ∈ s.pq, y.t < x.t) :
    (s.heapPush x).pq = s.pq ++ [{ x with index := (s.pq.length : Int) }] := by
  have hpq1 : (s.pushIface x).pq = s.pq ++ [{ x with index := (s.pq.length : Int) }] := rfl
  have hhp : s.heapPush x = (s.pushIface x).up ((s.pushIface x).pq.length - 1) := rfl
  have hlen1 : (s.pushIface x).pq.length = s.pq.length + 1 := by
    rw [hpq1, List.length_append, List.length_singleton]
  rw [hhp, hlen1]
  simp only [Nat.add_sub_cancel]
  cases hn : s.pq.length with
  | zero =>
    have hstep : (s.pushIface x).up 0 = s.pushIface x := by
      show (s.pushIface x).upFuel 0 1 = s.pushIface x
      rw [upFuel_succ_eq]
      simp
    rw [hstep, hpq1, hn]
  | succ n =>
    have hij : ¬ ((n + 1 - 1) / 2 = n + 1) := by omega
    have hi : (n + 1 - 1) / 2 < s.pq.length := by omega
    obtain ⟨pi, hpi⟩ : ∃ z, s.pq[(n + 1 - 1) / 2]? = some z :=
      ⟨s.pq.get ⟨(n + 1 - 1) / 2, hi⟩, List.getElem?_eq_some.mpr ⟨hi, rfl⟩⟩
    have hless : (s.pushIface x).lessAt (n + 1) ((n + 1 - 1) / 2) = false := by
      unfold Store.lessAt
      have h1 : (s.pushIface x).pq.getD (n + 1) Item.zero =
          { x with index := (s.pq.length : Int) } := by
        apply getD_of_getElem?
        rw [hpq1, ← hn]
        exact List.getElem?_concat_length _ _
      have h2 : (s.pushIface x).pq.getD ((n + 1 - 1) / 2) Item.zero = pi := by
        apply getD_of_getElem?
        rw [hpq1, List.getElem?_append_left (by omega)]
        exact hpi
      rw [h1, h2]
      exact less_false_of_t_gt hcmp (hmax pi (List.getElem?_mem hpi))
    have hstep : (s.pushIface x).up (n + 1) = s.pushIface x := by
      show (s.pushIface x).upFuel (n + 1) (n + 2) = s.pushIface x
      rw [upFuel_succ_eq, if_neg hij, hless]
      simp
    rw [hstep, hpq1, hn]

theorem heapPop_props {α : Type} {s : Store α} (hs : s.Sync) (hne : s.pq ≠ []) :
    (s.heapPop).1.Sync ∧
    (s.heapPop).1.pq.length = s.pq.length - 1 ∧
    (s.heapPop).1.cmp = s.cmp ∧ (s.heapPop).1.capacity = s.capacity ∧
    (s.heapPop).2.data = s.peekIt.data ∧
    mLookup (s.heapPop).1.m s.peekIt.key = none ∧
    (∀ k, k ≠ s.peekIt.key → (s.heapPop).1.entry k = s.entry k) ∧
    (∀ y ∈ (s.heapPop).1.pq, ∃ z ∈ s.pq, z.data = y.data) := by
  have hlenpos : 0 < s.pq.length := List.length_pos.mpr hne
  have hroot := peekIt_getElem hne
  have hn1 : s.pq.length - 1 < s.pq.length := by omega
  have hswap := swapIdx_sync_pres hs hlenpos hn1
  set s1 := s.swapIdx 0 (s.pq.length - 1) with hs1def
  have hlen1 : s1.pq.length = s.pq.length := swapIdx_length _ _ _
  have hdown := down_sync_pres (s := s1) (i := 0) (n := s.pq.length - 1) hswap.1
    (by rw [hlen1]; omega)
  set s2 := (s1.down 0 (s.pq.length - 1)).1 with hs2def
  have hpres2 : Pres s s2 := hswap.2.trans hdown.2
  have hlen2 : s2.pq.length = s.pq.length := by
    rw [hpres2.2.2.1]
  -- down never touches slots at or beyond its bound n
  have hdge : ∀ (fuel : Nat) (s0 : Store α) (i n : Nat), ∀ l, n ≤ l →
      (s0.downFuel i n fuel).1.pq[l]? = s0.pq[l]? := by
    intro fuel
    induction fuel with
    | zero => intro s0 i n l hl; rfl
    | succ fuel ih =>
      intro s0 i n l hl
      rw [downFuel_succ_eq]
      by_cases h1 : n ≤ 2 * i + 1
      · simp [h1]
      · simp only [if_neg h1]
        set j := if decide (2 * i + 2 < n) && s0.lessAt (2 * i + 2) (2 * i + 1) then 2 * i + 2
          else 2 * i + 1 with hjdef
        have hjn : j < n := by
          rw [hjdef]
          split
          · rename_i hx
            exact of_decide_eq_true (Bool.and_elim_left hx)
          · omega
        by_cases h3 : s0.lessAt j i
        · simp only [if_pos h3]
          rw [ih _ _ _ _ hl]
          rw [swapIdx_pq_getElem]
          have hjl : ¬ (j = l) := by omega
          have hil : ¬ (i = l) := by omega
          simp [hjl, hil]
        · simp [h3]
  set popped : Item α := { s.peekIt with index := ((s.pq.length - 1 : Nat) : Int) }
    with hpoppeddef
  have hslot : s2.pq[s.pq.length - 1]? = some popped := by
    rw [hs2def]
    show ((s1.downFuel 0 (s.pq.length - 1) ((s.pq.length - 1) + 1)).1).pq[s.pq.length - 1]? = _
    rw [hdge _ _ _ _ _ (Nat.le_refl _)]
    rw [hs1def, swapIdx_pq_getElem]
    have hd0 : s.pq.getD 0 Item.zero = s.peekIt := getD_of_getElem? _ hroot
    rw [hd0]
    simp [hn1]
  have hlast : s2.pq.getLast? = some popped := by
    rw [List.getLast?_eq_getElem?, hlen2]
    exact hslot
  have hpk : popped.key = s.peekIt.key := rfl
  have hpop : s.heapPop =
      ({ s2 with pq := s2.pq.dropLast, m := mDel s2.m popped.key },
       { popped with index := -1 }) := by
    show s2.popIface = _
    unfold Store.popIface
    rw [hlast]
  have hsplit : s2.pq.dropLast ++ [popped] = s2.pq :=
    List.dropLast_append_getLast? _ (by rw [hlast]; exact rfl)
  have hdllen : s2.pq.dropLast.length = s.pq.length - 1 := by
    rw [List.length_dropLast, hlen2]
  have hdl : ∀ {l : Nat}, l < s.pq.length - 1 → s2.pq.dropLast[l]? = s2.pq[l]? := by
    intro l hl
    conv_rhs => rw [← hsplit]
    rw [List.getElem?_append_left (by rw [hdllen]; exact hl)]
  have hkeyne : ∀ {l : Nat} {it : Item α}, s2.pq[l]? = some it → l < s.pq.length - 1 →
      it.key ≠ s.peekIt.key := by
    intro l it hit hl hcon
    have := hdown.1.key_unique hit hslot (by rw [hcon, hpk])
    omega
  rw [hpop]
  refine ⟨?_, ?_, ?_, ?_, ?_, ?_, ?_, ?_⟩
  · refine ⟨?_, ?_, ?_⟩
    · intro p hp
      simp only [hpk] at hp
      rcases mem_mDel hp with ⟨h1, h1k⟩
      have hold := hdown.1.1 _ h1
      rcases Option.map_eq_some'.mp hold with ⟨it, hit, hk⟩
      have hl2 : p.2 < s2.pq.length := by
        by_contra hcon
        rw [List.getElem?_eq_none (Nat.le_of_not_lt hcon)] at hit
        exact Option.noConfusion hit
      have hlne : p.2 ≠ s.pq.length - 1 := by
        intro hcon
        rw [hcon, hslot] at hit
        cases hit
        exact h1k (hk ▸ rfl)
      have hl3 : p.2 < s.pq.length - 1 := by
        rw [hlen2] at hl2
        omega
      simp only
      rw [hdl hl3]
      exact hold
    · intro l hl
      simp only at hl
      rw [hdllen] at hl
      simp only
      rw [hdl hl]
      cases hgl : s2.pq[l]? with
      | none =>
        rw [List.getElem?_eq_none_iff, hlen2] at hgl
        omega
      | some it =>
        simp only [Option.some_bind]
        rw [hpk, mLookup_mDel_ne _ _ _ (hkeyne hgl hl)]
        have := hdown.1.2.1 l (by rw [hlen2]; omega)
        rw [hgl] at this
        exact this
    · simp only [hpk]
      exact mDel_nodup_keys _ hdown.1.2.2
  · simp only
    exact hdllen
  · simp only
    exact hpres2.1
  · simp only
    exact hpres2.2.1
  · rfl
  · simp only [hpk]
    exact mLookup_mDel_self _ _
  · intro k hk
    have hstep : (Store.entry
        { s2 with pq := s2.pq.dropLast, m := mDel s2.m s.peekIt.key } k) = s2.entry k := by
      unfold Store.entry
      simp only
      rw [mLookup_mDel_ne _ _ _ hk]
      cases hmk : mLookup s2.m k with
      | none => rfl
      | some i =>
        rcases hdown.1.lookup_spec hmk with ⟨it, hit, hkey⟩
        have hl2 : i < s2.pq.length := by
          by_contra hcon
          rw [List.getElem?_eq_none (Nat.le_of_not_lt hcon)] at hit
          exact Option.noConfusion hit
        have hlne : i ≠ s.pq.length - 1 := by
          intro hcon
          rw [hcon, hslot] at hit
          cases hit
          exact hk (by rw [← hkey])
        have hl3 : i < s.pq.length - 1 := by
          rw [hlen2] at hl2
          omega
        simp only [Option.some_bind]
        rw [hdl hl3]
    simp only [hpk]
    rw [hstep, hpres2.2.2.2.1 k]
  · intro y hy
    simp only at hy
    have hymem : y ∈ s2.pq := by
      rw [← hsplit]
      exact List.mem_append.mpr (Or.inl hy)
    exact hpres2.2.2.2.2 y hymem

/-! ### Store operations -/

theorem updateUnchecked_props {α : Type} {s : Store α} (hs : s.Sync) {i : Nat} {it0 : Item α}
    (hi : s.pq[i]? = some it0) (now : Nat) (v : Option α) (sc : Nat) :
    (s.updateUnchecked now i v sc).Sync ∧
    (s.updateUnchecked now i v sc).pq.length = s.pq.length ∧
    (s.updateUnchecked now i v sc).cmp = s.cmp ∧
    (s.updateUnchecked now i v sc).capacity = s.capacity ∧
    (s.updateUnchecked now i v sc).entry it0.key = some (v, now, it0.a + sc) ∧
    (∀ k, k ≠ it0.key → (s.updateUnchecked now i v sc).entry k = s.entry k) ∧
    (∀ y ∈ (s.updateUnchecked now i v sc).pq, (∃ z ∈ s.pq, z.data = y.data) ∨ y.t = now) := by
  have hilen : i < s.pq.length := by
    by_contra hcon
    rw [List.getElem?_eq_none (Nat.le_of_not_lt hcon)] at hi
    exact Option.noConfusion hi
  have hd : s.pq.getD i Item.zero = it0 := getD_of_getElem? _ hi
  have huu : s.updateUnchecked now i v sc =
      ({ s with pq := s.pq.set i { it0 with v := v, a := it0.a + sc, t := now } }).heapFix i := by
    unfold Store.updateUnchecked
    rw [hd]
  set it1 : Item α := { it0 with v := v, a := it0.a + sc, t := now } with hit1def
  set s3 : Store α := { s with pq := s.pq.set i it1 } with hs3def
  have hlen3 : s3.pq.length = s.pq.length := by
    rw [hs3def]
    exact List.length_set _ _ _
  have hget3 : ∀ l : Nat, s3.pq[l]? = if i = l then some it1 else s.pq[l]? := by
    intro l
    rw [hs3def]
    show (s.pq.set i it1)[l]? = _
    rw [List.getElem?_set]
    by_cases h : i = l
    · subst h
      simp [hilen]
    · simp [h]
  have hsync3 : s3.Sync := by
    refine ⟨?_, ?_, hs.2.2⟩
    · intro p hp
      have hold := hs.1 _ hp
      rcases Option.map_eq_some'.mp hold with ⟨it, hit, hk⟩
      rw [hget3]
      by_cases h : i = p.2
      · rw [← h, hi] at hit
        cases hit
        simp only [if_pos h]
        simpa using hk
      · rw [if_neg h]
        exact hold
    · intro l hl
      rw [hlen3] at hl
      rw [hget3]
      by_cases h : i = l
      · simp only [if_pos h, Option.some_bind]
        have hk1 : it1.key = it0.key := rfl
        rw [hk1, ← h]
        exact hs.get_spec hi
      · simp only [if_neg h]
        cases hgl : s.pq[l]? with
        | none =>
          rw [List.getElem?_eq_none_iff] at hgl
          omega
        | some it =>
          simp only [Option.some_bind]
          have := hs.2.1 l hl
          rw [hgl] at this
          exact this
  have hlk : mLookup s.m it0.key = some i := hs.get_spec hi
  have hent3 : s3.entry it0.key = some (v, now, it0.a + sc) := by
    unfold Store.entry
    rw [hs3def]
    show (mLookup s.m it0.key).bind _ = _
    rw [hlk]
    simp only [Option.some_bind]
    show (s.pq.set i it1)[i]?.map _ = _
    rw [List.getElem?_set]
    simp [hilen]
  have hentk : ∀ k, k ≠ it0.key → s3.entry k = s.entry k := by
    intro k hk
    unfold Store.entry
    rw [hs3def]
    show (mLookup s.m k).bind _ = (mLookup s.m k).bind _
    cases hmk : mLookup s.m k with
    | none => rfl
    | some l =>
      rcases hs.lookup_spec hmk with ⟨it, hit, hkey⟩
      have hlni : ¬ (i = l) := by
        intro hcon
        rw [← hcon, hi] at hit
        cases hit
        exact hk hkey.symm
      simp only [Option.some_bind]
      show (s.pq.set i it1)[l]?.map _ = _
      rw [List.getElem?_set, if_neg hlni]
  have hdata3 : ∀ y ∈ s3.pq, (∃ z ∈ s.pq, z.data = y.data) ∨ y.t = now := by
    intro y hy
    rw [hs3def] at hy
    rcases List.mem_or_eq_of_mem_set hy with h | h
    · exact Or.inl ⟨y, h, rfl⟩
    · subst h
      exact Or.inr rfl
  have hfix := heapFix_sync_pres hsync3 (i := i) (by rw [hlen3]; exact hilen)
  rw [huu]
  refine ⟨hfix.1, ?_, ?_, ?_, ?_, ?_, ?_⟩
  · rw [hfix.2.2.2.1, hlen3]
  · rw [hfix.2.1]
  · rw [hfix.2.2.1]
  · rw [hfix.2.2.2.2.1, hent3]
  · intro k hk
    rw [hfix.2.2.2.2.1, hentk k hk]
  · intro y hy
    rcases hfix.2.2.2.2.2 y hy with ⟨z, hz, hd2⟩
    rcases hdata3 z hz with h | h
    · rcases h with ⟨w, hw, hdw⟩
      exact Or.inl ⟨w, hw, hdw.trans hd2⟩
    · right
      have : z.t = y.t := congrArg (fun d => d.2.2.1) hd2
      rw [← this, h]

theorem store_get_miss {α : Type} {s : Store α} {k : String} (h : mLookup s.m k = none)
    (now : Nat) : s.get now k = ((none, false), s) := by
  simp [Store.get, h]

theorem store_get_hit_props {α : Type} {s : Store α} (hs : s.Sync) {k : String} {i : Nat}
    (h : mLookup s.m k = some i) (now : Nat) :
    ∃ it0 : Item α, s.pq[i]? = some it0 ∧ it0.key = k ∧
      (s.get now k).1 = (it0.v, true) ∧
      (s.get now k).2 = s.updateUnchecked now i it0.v 1 := by
  rcases hs.lookup_spec h with ⟨it0, hit, hk⟩
  refine ⟨it0, hit, hk, ?_, ?_⟩
  · unfold Store.get
    rw [h]
    simp [List.getD_eq_getElem?_getD, hit]
  · unfold Store.get
    rw [h]
    simp [List.getD_eq_getElem?_getD, hit]

theorem store_update_miss {α : Type} {s : Store α} {k : String} (h : mLookup s.m k = none)
    (now : Nat) (v : Option α) : s.update now k v = (false, s) := by
  simp [Store.update, h]

theorem store_update_hit {α : Type} {s : Store α} {k : String} {i : Nat}
    (h : mLookup s.m k = some i) (now : Nat) (v : Option α) :
    s.update now k v = (true, s.updateUnchecked now i v 1) := by
  simp [Store.update, h]

theorem store_put_present {α : Type} {s : Store α} {k : String} {i : Nat}
    (h : mLookup s.m k = some i) (now : Nat) (v : Option α) (sc : Nat) :
    s.put now k v sc = (s.updateUnchecked now i v sc, Item.zero) := by
  simp [Store.put, h]

theorem store_put_notfull {α : Type} {s : Store α} {k : String}
    (h : mLookup s.m k = none) (hlen : ¬ (s.pq.length = s.capacity)) (now : Nat)
    (v : Option α) (sc : Nat) :
    s.put now k v sc = (s.heapPush { key := k, v := v, t := now, a := sc, index := 0 },
      Item.zero) := by
  simp [Store.put, h, hlen]

theorem store_put_bounce {α : Type} {s : Store α} {k : String}
    (h : mLookup s.m k = none) (hlen : s.pq.length = s.capacity) {now : Nat}
    {v : Option α} {sc : Nat}
    (hb : 0 < s.pq.length ∧ s.less { key := k, v := v, t := now, a := sc, index := 0 } s.peekIt) :
    s.put now k v sc = (s, { key := k, v := v, t := now, a := sc, index := 0 }) := by
  simp only [Store.put, h, hlen, hb]
  simp [Store.put, h, hlen, hb]
  intro hcap0
  rw [hcap0] at hlen
  exact absurd hb.1 (by omega)

theorem store_put_evict {α : Type} {s : Store α} {k : String}
    (h : mLookup s.m k = none) (hlen : s.pq.length = s.capacity) {now : Nat}
    {v : Option α} {sc : Nat}
    (hnb : ¬ (0 < s.pq.length ∧
      s.less { key := k, v := v, t := now, a := sc, index := 0 } s.peekIt)) :
    s.put now k v sc =
      ((s.heapPop).1.heapPush { key := k, v := v, t := now, a := sc, index := 0 },
        (s.heapPop).2) := by
  simp [Store.put, h, hlen, hnb]
  intro hpos hless
  rw [← hlen] at hpos
  exact absurd ⟨hpos, hless⟩ hnb

theorem no_bounce_of_tbound {α : Type} {s : Store α} (hcmp : s.cmp = .byTime)
    {b now : Nat} (htb : s.TBound b) (hb : b < now) {k : String} {v : Option α} {sc : Nat} :
    ¬ (0 < s.pq.length ∧
      s.less { key := k, v := v, t := now, a := sc, index := 0 } s.peekIt) := by
  rintro ⟨hpos, hless⟩
  have hne : s.pq ≠ [] := List.length_pos.mp hpos
  have hpeek : s.peekIt ∈ s.pq := List.getElem?_mem (peekIt_getElem hne)
  have ht : s.peekIt.t < now := Nat.lt_of_le_of_lt (htb _ hpeek) hb
  have := less_false_of_t_gt hcmp (x := { key := k, v := v, t := now, a := sc, index := 0 })
    (y := s.peekIt) ht
  rw [this] at hless
  exact Bool.noConfusion hless

theorem less_byAcc_false {α : Type} {s : Store α} (hcmp : s.cmp = .byAccesses)
    {x y : Item α} (h : y.a < x.a ∨ (x.a = y.a ∧ ¬ (x.t < y.t))) : s.less x y = false := by
  unfold Store.less
  rw [hcmp]
  rcases h with h | ⟨h1, h2⟩
  · have hne : x.a ≠ y.a := Nat.ne_of_gt h
    simp [hne, Nat.not_lt.mpr (Nat.le_of_lt h)]
  · simp [h1, h2]

theorem less_byTime_false_of_ta {α : Type} {s : Store α} (hcmp : s.cmp = .byTime)
    {x y : Item α} (ht : x.t = y.t) (ha : ¬ (x.a < y.a)) : s.less x y = false := by
  unfold Store.less
  rw [hcmp]
  simp [ht, ha]

/-! ### Cache-level invariant -/

theorem CacheInv.disj_rev {α : Type} {c : Cache α} (h : CacheInv c) :
    ∀ it ∈ c.mfa.pq, mLookup c.lru.m it.key = none := by
  intro it hit
  cases hmk : mLookup c.lru.m it.key with
  | none => rfl
  | some i =>
    rcases h.syncL.lookup_spec hmk with ⟨it2, hit2, hk⟩
    have hmem2 : it2 ∈ c.lru.pq := List.getElem?_mem hit2
    have hnone := h.disj it2 hmem2
    rw [hk] at hnone
    have := h.syncM.get_spec (List.mem_iff_getElem?.mp hit).choose_spec
    rw [hnone] at this
    exact Option.noConfusion this

theorem tick_no_wrap {α : Type} (c : Cache α) (ht : c.t + 1 < uintMod) :
    c.tickClock = { c with t := c.t + 1 } := by
  unfold Cache.tickClock
  have h1 : (c.t + 1) % uintMod = c.t + 1 := Nat.mod_eq_of_lt ht
  rw [h1]
  simp

/-! ### Cache.Get branch equations -/

theorem cache_get_miss_eq {α : Type} {c : Cache α} {k : String}
    (ht : c.t + 1 < uintMod) (hm : mLookup c.mfa.m k = none)
    (hl : mLookup c.lru.m k = none) :
    Cache.Get c k = ((none, false),
      { c with t := c.t + 1, m := ((c.m.missMFA).missLRU).missK k }) := by
  unfold Cache.Get
  rw [tick_no_wrap c ht]
  simp only [store_get_miss hm, store_get_miss hl]
  simp

theorem cache_get_mfa_hit_eq {α : Type} {c : Cache α} {k : String} {i : Nat}
    (ht : c.t + 1 < uintMod) (hsm : c.mfa.Sync) (hm : mLookup c.mfa.m k = some i) :
    ∃ it0 : Item α, c.mfa.pq[i]? = some it0 ∧ it0.key = k ∧
    Cache.Get c k = ((it0.v, true),
      { c with
        t := c.t + 1
        mfa := c.mfa.updateUnchecked (c.t + 1) i it0.v 1
        m := c.m.hitMFA }) := by
  obtain ⟨it0, hit, hk, hres, hst⟩ := store_get_hit_props hsm hm (c.t + 1)
  refine ⟨it0, hit, hk, ?_⟩
  unfold Cache.Get
  rw [tick_no_wrap c ht]
  have hfull : c.mfa.get (c.t + 1) k = ((it0.v, true), c.mfa.updateUnchecked (c.t + 1) i it0.v 1) := by
    rcases hq : c.mfa.get (c.t + 1) k with ⟨⟨rv, rb⟩, rs⟩
    rw [hq] at hres hst
    simp only at hres hst
    rw [show rv = it0.v from congrArg Prod.fst hres, show rb = true from congrArg Prod.snd hres, hst]
  simp only [hfull]
  simp

theorem cache_get_lru_hit_eq {α : Type} {c : Cache α} {k : String} {i : Nat}
    (ht : c.t + 1 < uintMod) (hsl : c.lru.Sync) (hm : mLookup c.mfa.m k = none)
    (hl : mLookup c.lru.m k = some i) :
    ∃ it0 : Item α, c.lru.pq[i]? = some it0 ∧ it0.key = k ∧
    Cache.Get c k = ((it0.v, true),
      { c with
        t := c.t + 1
        lru := c.lru.updateUnchecked (c.t + 1) i it0.v 1
        m := (c.m.missMFA).hitLRU }) := by
  obtain ⟨it0, hit, hk, hres, hst⟩ := store_get_hit_props hsl hl (c.t + 1)
  refine ⟨it0, hit, hk, ?_⟩
  unfold Cache.Get
  rw [tick_no_wrap c ht]
  have hfull : c.lru.get (c.t + 1) k = ((it0.v, true), c.lru.updateUnchecked (c.t + 1) i it0.v 1) := by
    rcases hq : c.lru.get (c.t + 1) k with ⟨⟨rv, rb⟩, rs⟩
    rw [hq] at hres hst
    simp only at hres hst
    rw [show rv = it0.v from congrArg Prod.fst hres, show rb = true from congrArg Prod.snd hres, hst]
  simp only [store_get_miss hm, hfull]
  simp

/-! ### Pop-then-push: a full store accepting a fresh candidate -/

theorem pop_push_props {α : Type} {s : Store α} (hs : s.Sync) {key : String}
    (habs : mLookup s.m key = none) (hne : s.pq ≠ []) (now : Nat) (v : Option α) (sc : Nat) :
    ((s.heapPop).1.heapPush { key := key, v := v, t := now, a := sc, index := 0 }).Sync ∧
    ((s.heapPop).1.heapPush { key := key, v := v, t := now, a := sc, index := 0 }).pq.length
      = s.pq.length ∧
    ((s.heapPop).1.heapPush { key := key, v := v, t := now, a := sc, index := 0 }).cmp = s.cmp ∧
    ((s.heapPop).1.heapPush { key := key, v := v, t := now, a := sc, index := 0 }).capacity
      = s.capacity ∧
    ((s.heapPop).1.heapPush { key := key, v := v, t := now, a := sc, index := 0 }).entry key
      = some (v, now, sc) ∧
    (∀ k2, k2 ≠ key → k2 ≠ s.peekIt.key →
      ((s.heapPop).1.heapPush { key := key, v := v, t := now, a := sc, index := 0 }).entry k2
        = s.entry k2) ∧
    mLookup ((s.heapPop).1.heapPush { key := key, v := v, t := now, a := sc, index := 0 }).m
      s.peekIt.key = none ∧
    (∀ y ∈ ((s.heapPop).1.heapPush { key := key, v := v, t := now, a := sc, index := 0 }).pq,
      (∃ z ∈ s.pq, z.data = y.data) ∨
        y.data = ({ key := key, v := v, t := now, a := sc, index := 0 } : Item α).data) := by
  obtain ⟨hpsync, hplen, hpcmp, hpcap, hpdata, hproot, hpent, hpsub⟩ := heapPop_props hs hne
  have hlenpos : 0 < s.pq.length := List.length_pos.mpr hne
  have hkeyne : key ≠ s.peekIt.key := by
    intro hcon
    have hpeek : s.peekIt ∈ s.pq := List.getElem?_mem (peekIt_getElem hne)
    have := hs.get_spec (peekIt_getElem hne)
    rw [← hcon, habs] at this
    exact Option.noConfusion this
  have habs2 : mLookup (s.heapPop).1.m key = none := by
    rw [← Store.not_hasKey_iff]
    rw [Store.hasKey_iff_entry_isSome hpsync, hpent key hkeyne]
    unfold Store.entry
    rw [habs]
    simp
  obtain ⟨hqsync, hqlen, hqcmp, hqcap, hqself, hqent, hqdata⟩ :=
    heapPush_props hpsync (x := { key := key, v := v, t := now, a := sc, index := 0 }) habs2
  refine ⟨hqsync, ?_, hqcmp.trans hpcmp, hqcap.trans hpcap, hqself, ?_, ?_, ?_⟩
  · rw [hqlen, hplen]
    omega
  · intro k2 hk2 hk2b
    rw [hqent k2 hk2, hpent k2 hk2b]
  · rw [← Store.not_hasKey_iff, Store.hasKey_iff_entry_isSome hqsync,
      hqent _ (fun hcon => hkeyne hcon.symm)]
    unfold Store.entry
    rw [hproot]
    simp
  · intro y hy
    rcases hqdata y hy with h | h
    · rcases h with ⟨z, hz, hd⟩
      rcases hpsub z hz with ⟨w, hw, hd2⟩
      exact Or.inl ⟨w, hw, hd2.trans hd⟩
    · exact Or.inr h

theorem pop_push_pq_byTime {α : Type} {s : Store α} (hs : s.Sync) {key : String}
    (habs : mLookup s.m key = none) (hne : s.pq ≠ []) (hcmp : s.cmp = .byTime)
    {b now : Nat} (htb : s.TBound b) (hb : b < now) (v : Option α) (sc : Nat) :
    ((s.heapPop).1.heapPush { key := key, v := v, t := now, a := sc, index := 0 }).pq
      = (s.heapPop).1.pq ++
        [{ key := key, v := v, t := now, a := sc, index := ((s.heapPop).1.pq.length : Int) }] := by
  obtain ⟨hpsync, hplen, hpcmp, hpcap, hpdata, hproot, hpent, hpsub⟩ := heapPop_props hs hne
  have hmax : ∀ y ∈ (s.heapPop).1.pq, y.t < now := by
    intro y hy
    rcases hpsub y hy with ⟨z, hz, hd⟩
    have : z.t = y.t := congrArg (fun d => d.2.2.1) hd
    exact Nat.lt_of_le_of_lt (this ▸ htb z hz) hb
  exact heapPush_append_of_fresh (hpcmp.trans hcmp)
    (x := { key := key, v := v, t := now, a := sc, index := 0 }) hmax

theorem tbound_pop_push {α : Type} {s : Store α} (hs : s.Sync) {key : String}
    (habs : mLookup s.m key = none) (hne : s.pq ≠ []) {b now : Nat}
    (htb : s.TBound b) (hb : b ≤ now) {v : Option α} {sc : Nat} :
    ((s.heapPop).1.heapPush { key := key, v := v, t := now, a := sc, index := 0 }).TBound now := by
  intro y hy
  rcases (pop_push_props hs habs hne now v sc).2.2.2.2.2.2.2 y hy with h | h
  · rcases h with ⟨z, hz, hd⟩
    have : z.t = y.t := congrArg (fun d => d.2.2.1) hd
    exact this ▸ le_trans (htb z hz) hb
  · have : y.t = now := congrArg (fun d => d.2.2.1) h
    exact this.le

theorem tbound_push {α : Type} {s : Store α} (hs : s.Sync) {x : Item α}
    (habs : mLookup s.m x.key = none) {b : Nat} (htb : s.TBound b) (hb : b ≤ x.t) :
    (s.heapPush x).TBound x.t := by
  intro y hy
  rcases (heapPush_props hs habs).2.2.2.2.2.2 y hy with h | h
  · rcases h with ⟨z, hz, hd⟩
    have : z.t = y.t := congrArg (fun d => d.2.2.1) hd
    exact this ▸ le_trans (htb z hz) hb
  · have : y.t = x.t := congrArg (fun d => d.2.2.1) h
    exact this.le

theorem lookup_none_of_entry_pres {α : Type} {s s2 : Store α} (hs : s.Sync) (hs2 : s2.Sync)
    {k : String} (hent : s2.entry k = s.entry k) (h : mLookup s.m k = none) :
    mLookup s2.m k = none := by
  rw [← Store.not_hasKey_iff] at h ⊢
  rw [Store.hasKey_iff_entry_isSome hs2, hent, ← Store.hasKey_iff_entry_isSome hs]
  exact h

theorem key_ne_of_mem_absent {α : Type} {s : Store α} (hs : s.Sync) {it : Item α}
    (hmem : it ∈ s.pq) {k : String} (habs : mLookup s.m k = none) : it.key ≠ k := by
  intro hcon
  have := Store.hasKey_of_mem hs hmem
  rw [hcon] at this
  unfold Store.hasKey at this
  rw [habs] at this
  exact Bool.noConfusion this

/-! ### Put: invariant preservation per branch -/

theorem hasKey_cases {α : Type} {s s2 : Store α} (hs : s.Sync) (hs2 : s2.Sync) {k0 : String}
    (hpres : ∀ k2, k2 ≠ k0 → s2.entry k2 = s.entry k2) {x : String} (hx : s2.hasKey x) :
    x = k0 ∨ s.hasKey x := by
  by_cases h : x = k0
  · exact Or.inl h
  · right
    rw [Store.hasKey_iff_entry_isSome hs2, hpres x h,
      ← Store.hasKey_iff_entry_isSome hs] at hx
    exact hx

theorem hasKey_cases2 {α : Type} {s s2 : Store α} (hs : s.Sync) (hs2 : s2.Sync) {k0 k1 : String}
    (hpres : ∀ k2, k2 ≠ k0 → k2 ≠ k1 → s2.entry k2 = s.entry k2) {x : String}
    (hx : s2.hasKey x) :
    x = k0 ∨ x = k1 ∨ s.hasKey x := by
  by_cases h : x = k0
  · exact Or.inl h
  by_cases h1 : x = k1
  · exact Or.inr (Or.inl h1)
  · refine Or.inr (Or.inr ?_)
    rw [Store.hasKey_iff_entry_isSome hs2, hpres x h h1,
      ← Store.hasKey_iff_entry_isSome hs] at hx
    exact hx

theorem put_step_mfa_update {α : Type} {c : Cache α} (hInv : CacheInv c) (k : String)
    (v : Option α) (ht : c.t + 1 < uintMod) {i : Nat}
    (hm : mLookup c.mfa.m k = some i) :
    PutPost c (Cache.Put c k v) k v := by
  unfold PutPost InvPost KeyPut
  rcases hInv.syncM.lookup_spec hm with ⟨it0, hit, hk⟩
  have hEQ : Cache.Put c k v =
      { c with
        t := c.t + 1
        mfa := c.mfa.updateUnchecked (c.t + 1) i v 1 } := by
    unfold Cache.Put
    rw [tick_no_wrap c ht]
    simp only [store_update_hit hm]
    simp
  obtain ⟨hq, hqlen, hqcmp, hqcap, hqself, hqpres, hqdata⟩ :=
    updateUnchecked_props hInv.syncM hit (c.t + 1) v 1
  rw [hEQ]
  refine ⟨⟨⟨hInv.syncL, hq, hInv.tbL.mono (Nat.le_succ c.t), ?_, ?_, hInv.lenL, ?_, hInv.cmpL,
      hqcmp ▸ hInv.cmpM, hInv.capL, hqcap ▸ hInv.capM⟩, rfl, rfl, hqcap⟩, ?_⟩
  · intro y hy
    rcases hqdata y hy with ⟨z, hz, hd⟩ | h
    · have : z.t = y.t := congrArg (fun d => d.2.2.1) hd
      exact this ▸ le_trans (hInv.tbM z hz) (Nat.le_succ c.t)
    · exact h.le
  · intro it hmem
    have hne : it.key ≠ k := by
      intro hcon
      have := hInv.disj it hmem
      rw [hcon, hm] at this
      exact Option.noConfusion this
    exact lookup_none_of_entry_pres hInv.syncM hq
      (hqpres it.key (fun hcon => hne (hcon.trans hk)))
      (hInv.disj it hmem)
  · rw [hqlen, hqcap]
    exact hInv.lenM
  · refine ⟨c.t + 1, it0.a + 1, Or.inl ?_⟩
    rw [← hk]
    exact hqself

theorem put_step_lru_update {α : Type} {c : Cache α} (hInv : CacheInv c) (k : String)
    (v : Option α) (ht : c.t + 1 < uintMod) {i : Nat}
    (hm : mLookup c.mfa.m k = none) (hl : mLookup c.lru.m k = some i) :
    PutPost c (Cache.Put c k v) k v := by
  unfold PutPost InvPost KeyPut
  rcases hInv.syncL.lookup_spec hl with ⟨it0, hit, hk⟩
  have hEQ : Cache.Put c k v =
      { c with
        t := c.t + 1
        lru := c.lru.updateUnchecked (c.t + 1) i v 1 } := by
    unfold Cache.Put
    rw [tick_no_wrap c ht]
    simp only [store_update_miss hm, store_update_hit hl]
    simp
  obtain ⟨hq, hqlen, hqcmp, hqcap, hqself, hqpres, hqdata⟩ :=
    updateUnchecked_props hInv.syncL hit (c.t + 1) v 1
  rw [hEQ]
  refine ⟨⟨⟨hq, hInv.syncM, ?_, hInv.tbM.mono (Nat.le_succ c.t), ?_, ?_, hInv.lenM,
      hqcmp ▸ hInv.cmpL, hInv.cmpM, hqcap ▸ hInv.capL, hInv.capM⟩, rfl, hqcap, rfl⟩, ?_⟩
  · intro y hy
    rcases hqdata y hy with ⟨z, hz, hd⟩ | h
    · have : z.t = y.t := congrArg (fun d => d.2.2.1) hd
      exact this ▸ le_trans (hInv.tbL z hz) (Nat.le_succ c.t)
    · exact h.le
  · intro it hmem
    rcases hasKey_cases hInv.syncL hq hqpres (Store.hasKey_of_mem hq hmem) with h | h
    · rw [h]
      exact hInv.disj it0 (List.getElem?_mem hit)
    · rcases Store.mem_of_hasKey hInv.syncL h with ⟨z, hz, hzk⟩
      rw [← hzk]
      exact hInv.disj z hz
  · rw [hqlen, hqcap]
    exact hInv.lenL
  · refine ⟨c.t + 1, it0.a + 1, Or.inr ⟨?_, hm⟩⟩
    rw [← hk]
    exact hqself

theorem put_step_insert {α : Type} {c : Cache α} (hInv : CacheInv c) (k : String)
    (v : Option α) (ht : c.t + 1 < uintMod)
    (hm : mLookup c.mfa.m k = none) (hl : mLookup c.lru.m k = none)
    (hnf : ¬ (c.lru.pq.length = c.lru.capacity)) :
    PutPost c (Cache.Put c k v) k v := by
  unfold PutPost InvPost KeyPut
  have hEQ : Cache.Put c k v =
      { c with
        t := c.t + 1
        lru := c.lru.heapPush { key := k, v := v, t := c.t + 1, a := 1, index := 0 } } := by
    unfold Cache.Put
    rw [tick_no_wrap c ht]
    simp only [store_update_miss hm, store_update_miss hl,
      store_put_notfull hl hnf (c.t + 1) v 1]
    simp [Item.zero]
  obtain ⟨hq, hqlen, hqcmp, hqcap, hqself, hqpres, hqdata⟩ :=
    heapPush_props hInv.syncL
      (x := { key := k, v := v, t := c.t + 1, a := 1, index := 0 }) hl
  rw [hEQ]
  refine ⟨⟨⟨hq, hInv.syncM, ?_, hInv.tbM.mono (Nat.le_succ c.t), ?_, ?_, hInv.lenM,
      hqcmp ▸ hInv.cmpL, hInv.cmpM, hqcap ▸ hInv.capL, hInv.capM⟩, rfl, hqcap, rfl⟩, ?_⟩
  · exact tbound_push hInv.syncL hl hInv.tbL (Nat.le_succ c.t)
  · intro it hmem
    rcases hasKey_cases hInv.syncL hq hqpres (Store.hasKey_of_mem hq hmem) with h | h
    · rw [h]
      exact hm
    · rcases Store.mem_of_hasKey hInv.syncL h with ⟨z, hz, hzk⟩
      rw [← hzk]
      exact hInv.disj z hz
  · rw [hqlen, hqcap]
    have := hInv.lenL
    omega
  · exact ⟨c.t + 1, 1, Or.inr ⟨hqself, hm⟩⟩

theorem put_step_full {α : Type} {c : Cache α} (hInv : CacheInv c) (k : String)
    (v : Option α) (ht : c.t + 1 < uintMod)
    (hm : mLookup c.mfa.m k = none) (hl : mLookup c.lru.m k = none)
    (hfull : c.lru.pq.length = c.lru.capacity) :
    InvPost c (Cache.Put c k v) ∧
      (2 ≤ c.lru.capacity → KeyPut (Cache.Put c k v) k v) ∧
      ((((c.lru.heapPop).2).v.isNone = false ∧ c.mfa.capacity ≤ c.mfa.pq.length) →
        (((Cache.Put c k v).mfa = c.mfa ∧
            (Cache.Put c k v).m = c.m.evict ((c.lru.heapPop).2).key) ↔
          (c.mfa.peekIt.a > ((c.lru.heapPop).2).a ∨
            (c.mfa.peekIt.a = ((c.lru.heapPop).2).a ∧
              c.mfa.peekIt.t < ((c.lru.heapPop).2).t)))) := by
  have hnow : c.t < c.t + 1 := Nat.lt_succ_self c.t
  have hlpos : 0 < c.lru.pq.length := by rw [hfull]; exact hInv.capL
  have hlne : c.lru.pq ≠ [] := List.length_pos.mp hlpos
  obtain ⟨hPsync, hPlen, hPcmp, hPcap, hEdata, hProot, hPent, hPsub⟩ :=
    heapPop_props hInv.syncL hlne
  have hEkey : ((c.lru.heapPop).2).key = c.lru.peekIt.key := congrArg (fun d => d.1) hEdata
  have hput1 : c.lru.put (c.t + 1) k v 1 =
      ((c.lru.heapPop).1.heapPush { key := k, v := v, t := c.t + 1, a := 1, index := 0 },
        (c.lru.heapPop).2) :=
    store_put_evict hl hfull (no_bounce_of_tbound hInv.cmpL hInv.tbL hnow)
  obtain ⟨hL1sync, hL1len, hL1cmp, hL1cap, hL1self, hL1pres, hL1gone, hL1data⟩ :=
    pop_push_props hInv.syncL hl hlne (c.t + 1) v 1
  have hpeekLmem : c.lru.peekIt ∈ c.lru.pq := List.getElem?_mem (peekIt_getElem hlne)
  have hpeekLmfa : mLookup c.mfa.m c.lru.peekIt.key = none := hInv.disj _ hpeekLmem
  have hkpeekL : c.lru.peekIt.key ≠ k := key_ne_of_mem_absent hInv.syncL hpeekLmem hl
  have hkE : k ≠ ((c.lru.heapPop).2).key := by
    rw [hEkey]
    exact Ne.symm hkpeekL
  have habsE : mLookup c.mfa.m ((c.lru.heapPop).2).key = none := by
    rw [hEkey]
    exact hpeekLmfa
  have hL1keys : ∀ it ∈
      ((c.lru.heapPop).1.heapPush { key := k, v := v, t := c.t + 1, a := 1, index := 0 }).pq,
      it.key = k ∨ (c.lru.hasKey it.key ∧ it.key ≠ c.lru.peekIt.key) := by
    intro it hmem
    have hne := key_ne_of_mem_absent hL1sync hmem hL1gone
    rcases hasKey_cases2 hInv.syncL hL1sync hL1pres (Store.hasKey_of_mem hL1sync hmem)
      with h | h | h
    · exact Or.inl h
    · exact absurd h hne
    · exact Or.inr ⟨h, hne⟩
  have hdisjL1 : ∀ it ∈
      ((c.lru.heapPop).1.heapPush { key := k, v := v, t := c.t + 1, a := 1, index := 0 }).pq,
      mLookup c.mfa.m it.key = none := by
    intro it hmem
    rcases hL1keys it hmem with h | ⟨h, _⟩
    · rw [h]
      exact hm
    · rcases Store.mem_of_hasKey hInv.syncL h with ⟨z, hz, hzk⟩
      rw [← hzk]
      exact hInv.disj z hz
  have hL1tb :
      ((c.lru.heapPop).1.heapPush
        { key := k, v := v, t := c.t + 1, a := 1, index := 0 }).TBound (c.t + 1) :=
    tbound_pop_push hInv.syncL hl hlne hInv.tbL (Nat.le_succ c.t)
  have hL1ne :
      ((c.lru.heapPop).1.heapPush
        { key := k, v := v, t := c.t + 1, a := 1, index := 0 }).pq ≠ [] := by
    rw [← List.length_pos, hL1len]
    exact hlpos
  have hPP0 : ∀ ms : MState, PutPost c
      { lru := (c.lru.heapPop).1.heapPush { key := k, v := v, t := c.t + 1, a := 1, index := 0 }, mfa := c.mfa, t := c.t + 1, capacity := c.capacity, m := ms } k v := by
    intro ms
    unfold PutPost InvPost KeyPut
    refine ⟨⟨⟨hL1sync, hInv.syncM, hL1tb, hInv.tbM.mono (Nat.le_succ c.t), hdisjL1, ?_,
      hInv.lenM, ?_, hInv.cmpM, ?_, hInv.capM⟩, rfl, hL1cap, rfl⟩,
      ⟨c.t + 1, 1, Or.inr ⟨hL1self, hm⟩⟩⟩
    · rw [hL1len, hL1cap]
      exact hInv.lenL
    · rw [hL1cmp]
      exact hInv.cmpL
    · rw [hL1cap]
      exact hInv.capL
  by_cases hEn : ((c.lru.heapPop).2).v.isNone = true
  · have hEQ : Cache.Put c k v =
        { lru := (c.lru.heapPop).1.heapPush { key := k, v := v, t := c.t + 1, a := 1, index := 0 }, mfa := c.mfa, t := c.t + 1, capacity := c.capacity, m := c.m } := by
      unfold Cache.Put
      rw [tick_no_wrap c ht]
      simp only [store_update_miss hm, store_update_miss hl, hput1, hEn]
      simp
    rw [hEQ]
    refine ⟨(hPP0 c.m).1, fun h2 => (hPP0 c.m).2, fun hpre => ?_⟩
    rw [hpre.1] at hEn
    exact Bool.noConfusion hEn
  by_cases hroom : c.mfa.pq.length < c.mfa.capacity
  · -- MFA has room: the LRU overflow is pushed into the MFA store.
    obtain ⟨hM1sync, hM1len, hM1cmp, hM1cap, hM1self, hM1pres, hM1data⟩ :=
      heapPush_props hInv.syncM
        (x := { key := ((c.lru.heapPop).2).key, v := ((c.lru.heapPop).2).v, t := c.t + 1, a := ((c.lru.heapPop).2).a, index := 0 }) habsE
    have hEQ : Cache.Put c k v =
        { lru := (c.lru.heapPop).1.heapPush { key := k, v := v, t := c.t + 1, a := 1, index := 0 }, mfa := c.mfa.heapPush { key := ((c.lru.heapPop).2).key, v := ((c.lru.heapPop).2).v, t := c.t + 1, a := ((c.lru.heapPop).2).a, index := 0 }, t := c.t + 1, capacity := c.capacity, m := c.m } := by
      unfold Cache.Put
      rw [tick_no_wrap c ht]
      simp only [store_update_miss hm, store_update_miss hl, hput1, hEn, Store.len,
        Store.capFn, hroom,
        store_put_notfull habsE (Nat.ne_of_lt hroom) (c.t + 1) ((c.lru.heapPop).2).v
          ((c.lru.heapPop).2).a]
      simp
    rw [hEQ]
    unfold InvPost KeyPut
    refine ⟨⟨⟨hL1sync, hM1sync, hL1tb, ?_, ?_, ?_, ?_, ?_, ?_, ?_, ?_⟩, rfl, hL1cap, hM1cap⟩,
      fun h2 => ⟨c.t + 1, 1, Or.inr ⟨hL1self, ?_⟩⟩,
      fun hpre => absurd hpre.2 (Nat.not_le.mpr hroom)⟩
    · exact tbound_push hInv.syncM habsE hInv.tbM (Nat.le_succ c.t)
    · intro it hmem
      rcases hL1keys it hmem with h | ⟨h, hne⟩
      · rw [h]
        exact lookup_none_of_entry_pres hInv.syncM hM1sync (hM1pres k hkE) hm
      · rcases Store.mem_of_hasKey hInv.syncL h with ⟨z, hz, hzk⟩
        have hz0 : mLookup c.mfa.m it.key = none := by
          rw [← hzk]
          exact hInv.disj z hz
        have hxE : it.key ≠ ((c.lru.heapPop).2).key := by
          rw [hEkey]
          exact hne
        exact lookup_none_of_entry_pres hInv.syncM hM1sync (hM1pres it.key hxE) hz0
    · rw [hL1len, hL1cap]
      exact hInv.lenL
    · rw [hM1len, hM1cap]
      omega
    · rw [hL1cmp]
      exact hInv.cmpL
    · rw [hM1cmp]
      exact hInv.cmpM
    · rw [hL1cap]
      exact hInv.capL
    · rw [hM1cap]
      exact hInv.capM
    · exact lookup_none_of_entry_pres hInv.syncM hM1sync (hM1pres k hkE) hm
  -- MFA is full.
  have hMfull : c.mfa.pq.length = c.mfa.capacity :=
    Nat.le_antisymm hInv.lenM (Nat.le_of_not_lt hroom)
  have hMpos : 0 < c.mfa.pq.length := by rw [hMfull]; exact hInv.capM
  have hMne : c.mfa.pq ≠ [] := List.length_pos.mp hMpos
  have hpeekMmem : c.mfa.peekIt ∈ c.mfa.pq := List.getElem?_mem (peekIt_getElem hMne)
  have hpeekMlru : mLookup c.lru.m c.mfa.peekIt.key = none := hInv.disj_rev _ hpeekMmem
  have hkpeekM : c.mfa.peekIt.key ≠ k := key_ne_of_mem_absent hInv.syncM hpeekMmem hm
  by_cases hD : c.mfa.peekIt.a > ((c.lru.heapPop).2).a ∨
      (c.mfa.peekIt.a = ((c.lru.heapPop).2).a ∧ c.mfa.peekIt.t < ((c.lru.heapPop).2).t)
  · -- The MFA minimum dominates the LRU overflow: drop it.
    have hEQ : Cache.Put c k v =
        { lru := (c.lru.heapPop).1.heapPush { key := k, v := v, t := c.t + 1, a := 1, index := 0 }, mfa := c.mfa, t := c.t + 1, capacity := c.capacity, m := c.m.evict ((c.lru.heapPop).2).key } := by
      unfold Cache.Put
      rw [tick_no_wrap c ht]
      simp only [store_update_miss hm, store_update_miss hl, hput1, hEn, Store.len,
        Store.capFn, hroom, hD]
      simp
    rw [hEQ]
    exact ⟨(hPP0 (c.m.evict ((c.lru.heapPop).2).key)).1,
      fun h2 => (hPP0 (c.m.evict ((c.lru.heapPop).2).key)).2,
      fun hpre => ⟨fun _ => hD, fun _ => ⟨rfl, rfl⟩⟩⟩
  -- The LRU overflow is offered to the full MFA store; it never bounces.
  have hnbM : ¬ (0 < c.mfa.pq.length ∧
      c.mfa.less { key := ((c.lru.heapPop).2).key, v := ((c.lru.heapPop).2).v, t := c.t + 1, a := ((c.lru.heapPop).2).a, index := 0 } c.mfa.peekIt) := by
    rintro ⟨_, hless⟩
    have hpt : c.mfa.peekIt.t ≤ c.t := hInv.tbM _ hpeekMmem
    have hfalse : c.mfa.less { key := ((c.lru.heapPop).2).key, v := ((c.lru.heapPop).2).v, t := c.t + 1, a := ((c.lru.heapPop).2).a, index := 0 } c.mfa.peekIt = false := by
      apply less_byAcc_false hInv.cmpM
      rcases Nat.lt_or_ge c.mfa.peekIt.a ((c.lru.heapPop).2).a with hlt | hge
      · exact Or.inl hlt
      · have heq : c.mfa.peekIt.a = ((c.lru.heapPop).2).a := by
          rcases Nat.lt_or_ge ((c.lru.heapPop).2).a c.mfa.peekIt.a with h2 | h2
          · exact absurd (Or.inl h2) hD
          · omega
        refine Or.inr ⟨heq.symm, ?_⟩
        show ¬ (c.t + 1 < c.mfa.peekIt.t)
        omega
    rw [hfalse] at hless
    exact Bool.noConfusion hless
  have hput2 : c.mfa.put (c.t + 1) ((c.lru.heapPop).2).key ((c.lru.heapPop).2).v
      ((c.lru.heapPop).2).a =
      ((c.mfa.heapPop).1.heapPush { key := ((c.lru.heapPop).2).key, v := ((c.lru.heapPop).2).v, t := c.t + 1, a := ((c.lru.heapPop).2).a, index := 0 },
        (c.mfa.heapPop).2) :=
    store_put_evict habsE hMfull hnbM
  obtain ⟨hQsync, hQlen, hQcmp, hQcap, hFdata, hQroot, hQent, hQsub⟩ :=
    heapPop_props hInv.syncM hMne
  have hFkey : ((c.mfa.heapPop).2).key = c.mfa.peekIt.key := congrArg (fun d => d.1) hFdata
  obtain ⟨hM1sync, hM1len, hM1cmp, hM1cap, hM1self, hM1pres, hM1gone, hM1data⟩ :=
    pop_push_props hInv.syncM habsE hMne (c.t + 1) ((c.lru.heapPop).2).v ((c.lru.heapPop).2).a
  have hlookM1k : mLookup ((c.mfa.heapPop).1.heapPush { key := ((c.lru.heapPop).2).key, v := ((c.lru.heapPop).2).v, t := c.t + 1, a := ((c.lru.heapPop).2).a, index := 0 }).m
      k = none :=
    lookup_none_of_entry_pres hInv.syncM hM1sync (hM1pres k hkE (Ne.symm hkpeekM)) hm
  have hdisjL1M1 : ∀ it ∈
      ((c.lru.heapPop).1.heapPush { key := k, v := v, t := c.t + 1, a := 1, index := 0 }).pq,
      mLookup ((c.mfa.heapPop).1.heapPush { key := ((c.lru.heapPop).2).key, v := ((c.lru.heapPop).2).v, t := c.t + 1, a := ((c.lru.heapPop).2).a, index := 0 }).m
        it.key = none := by
    intro it hmem
    rcases hL1keys it hmem with h | ⟨h, hne⟩
    · rw [h]
      exact hlookM1k
    · rcases Store.mem_of_hasKey hInv.syncL h with ⟨z, hz, hzk⟩
      have hz0 : mLookup c.mfa.m it.key = none := by
        rw [← hzk]
        exact hInv.disj z hz
      by_cases hc : it.key = c.mfa.peekIt.key
      · rw [hc]
        exact hM1gone
      · have hxE : it.key ≠ ((c.lru.heapPop).2).key := by
          rw [hEkey]
          exact hne
        exact lookup_none_of_entry_pres hInv.syncM hM1sync (hM1pres it.key hxE hc) hz0
  have hM1tb :
      ((c.mfa.heapPop).1.heapPush { key := ((c.lru.heapPop).2).key, v := ((c.lru.heapPop).2).v, t := c.t + 1, a := ((c.lru.heapPop).2).a, index := 0 }).TBound (c.t + 1) :=
    tbound_pop_push hInv.syncM habsE hMne hInv.tbM (Nat.le_succ c.t)
  have hM1ne : (c.mfa.heapPop).1.heapPush { key := ((c.lru.heapPop).2).key, v := ((c.lru.heapPop).2).v, t := c.t + 1, a := ((c.lru.heapPop).2).a, index := 0 } ≠ c.mfa := by
    intro hEq
    have h1 := hM1self
    rw [hEq] at h1
    unfold Store.entry at h1
    rw [habsE] at h1
    exact Option.noConfusion h1
  have hPP2 : ∀ ms : MState, PutPost c
      { lru := (c.lru.heapPop).1.heapPush { key := k, v := v, t := c.t + 1, a := 1, index := 0 }, mfa := (c.mfa.heapPop).1.heapPush { key := ((c.lru.heapPop).2).key, v := ((c.lru.heapPop).2).v, t := c.t + 1, a := ((c.lru.heapPop).2).a, index := 0 }, t := c.t + 1, capacity := c.capacity, m := ms } k v := by
    intro ms
    unfold PutPost InvPost KeyPut
    refine ⟨⟨⟨hL1sync, hM1sync, hL1tb, hM1tb, hdisjL1M1, ?_, ?_, ?_, ?_, ?_, ?_⟩, rfl,
      hL1cap, hM1cap⟩, ⟨c.t + 1, 1, Or.inr ⟨hL1self, hlookM1k⟩⟩⟩
    · rw [hL1len, hL1cap]
      exact hInv.lenL
    · rw [hM1len, hM1cap]
      exact hInv.lenM
    · rw [hL1cmp]
      exact hInv.cmpL
    · rw [hM1cmp]
      exact hInv.cmpM
    · rw [hL1cap]
      exact hInv.capL
    · rw [hM1cap]
      exact hInv.capM
  by_cases hFn : ((c.mfa.heapPop).2).v.isNone = true
  · have hEQ : Cache.Put c k v =
        { lru := (c.lru.heapPop).1.heapPush { key := k, v := v, t := c.t + 1, a := 1, index := 0 }, mfa := (c.mfa.heapPop).1.heapPush { key := ((c.lru.heapPop).2).key, v := ((c.lru.heapPop).2).v, t := c.t + 1, a := ((c.lru.heapPop).2).a, index := 0 }, t := c.t + 1, capacity := c.capacity, m := c.m } := by
      unfold Cache.Put
      rw [tick_no_wrap c ht]
      simp only [store_update_miss hm, store_update_miss hl, hput1, hEn, Store.len,
        Store.capFn, hroom, hD, hput2, hFn]
      simp
    rw [hEQ]
    exact ⟨(hPP2 c.m).1, fun h2 => (hPP2 c.m).2,
      fun hpre => ⟨fun hEq => absurd hEq.1 hM1ne, fun hDt => absurd hDt hD⟩⟩
  by_cases hS :
      ((c.lru.heapPop).1.heapPush { key := k, v := v, t := c.t + 1, a := 1, index := 0 }).pq.length
        ≤ 0
      ∨ ((c.lru.heapPop).1.heapPush
          { key := k, v := v, t := c.t + 1, a := 1, index := 0 }).peekIt.a
        ≥ ((c.mfa.heapPop).2).a
  · -- Secondary demotion refused: the MFA overflow is dropped.
    have hEQ : Cache.Put c k v =
        { lru := (c.lru.heapPop).1.heapPush { key := k, v := v, t := c.t + 1, a := 1, index := 0 }, mfa := (c.mfa.heapPop).1.heapPush { key := ((c.lru.heapPop).2).key, v := ((c.lru.heapPop).2).v, t := c.t + 1, a := ((c.lru.heapPop).2).a, index := 0 }, t := c.t + 1, capacity := c.capacity, m := c.m.evict ((c.mfa.heapPop).2).key } := by
      unfold Cache.Put
      rw [tick_no_wrap c ht]
      simp only [store_update_miss hm, store_update_miss hl, hput1, hEn, Store.len,
        Store.capFn, hroom, hD, hput2, hFn, hS]
      simp
    rw [hEQ]
    exact ⟨(hPP2 (c.m.evict ((c.mfa.heapPop).2).key)).1,
      fun h2 => (hPP2 (c.m.evict ((c.mfa.heapPop).2).key)).2,
      fun hpre => ⟨fun hEq => absurd hEq.1 hM1ne, fun hDt => absurd hDt hD⟩⟩
  -- Deepest branch: the MFA overflow is demoted back into the full LRU,
  -- evicting the LRU root — which, with capacity ≥ 2, is not the fresh key.
  have hL1pq :
      ((c.lru.heapPop).1.heapPush { key := k, v := v, t := c.t + 1, a := 1, index := 0 }).pq
      = (c.lru.heapPop).1.pq ++
        [{ key := k, v := v, t := c.t + 1, a := 1, index := ((c.lru.heapPop).1.pq.length : Int) }] :=
    pop_push_pq_byTime hInv.syncL hl hlne hInv.cmpL hInv.tbL hnow v 1
  have hroot2 : 0 < (c.lru.heapPop).1.pq.length →
      k ≠ ((c.lru.heapPop).1.heapPush
        { key := k, v := v, t := c.t + 1, a := 1, index := 0 }).peekIt.key ∧
      ((c.lru.heapPop).1.heapPush
        { key := k, v := v, t := c.t + 1, a := 1, index := 0 }).peekIt.t ≤ c.t := by
    intro hApos
    obtain ⟨rootA, hrootA⟩ : ∃ x, (c.lru.heapPop).1.pq[0]? = some x :=
      ⟨_, List.getElem?_eq_getElem hApos⟩
    have hL1root :
        ((c.lru.heapPop).1.heapPush
          { key := k, v := v, t := c.t + 1, a := 1, index := 0 }).pq[0]? = some rootA := by
      rw [hL1pq, List.getElem?_append, if_pos hApos]
      exact hrootA
    have hL1peek : rootA =
        ((c.lru.heapPop).1.heapPush
          { key := k, v := v, t := c.t + 1, a := 1, index := 0 }).peekIt := by
      have h0 := peekIt_getElem hL1ne
      rw [hL1root] at h0
      exact Option.some.inj h0
    have hrootAmem : rootA ∈ (c.lru.heapPop).1.pq := List.getElem?_mem hrootA
    obtain ⟨zr, hzr, hzrd⟩ := hPsub rootA hrootAmem
    have hrootAt : rootA.t ≤ c.t := by
      have h1 : zr.t = rootA.t := congrArg (fun d => d.2.2.1) hzrd
      exact h1 ▸ hInv.tbL zr hzr
    have hrootAkey : rootA.key ≠ k := by
      have h1 : zr.key = rootA.key := congrArg (fun d => d.1) hzrd
      exact h1 ▸ key_ne_of_mem_absent hInv.syncL hzr hl
    constructor
    · rw [← hL1peek]
      exact Ne.symm hrootAkey
    · rw [← hL1peek]
      exact hrootAt
  have hkF : k ≠ ((c.mfa.heapPop).2).key := by
    rw [hFkey]
    exact Ne.symm hkpeekM
  have habsF1 : mLookup
      ((c.lru.heapPop).1.heapPush { key := k, v := v, t := c.t + 1, a := 1, index := 0 }).m
      ((c.mfa.heapPop).2).key = none := by
    rw [← Store.not_hasKey_iff]
    intro hcon
    rcases hasKey_cases2 hInv.syncL hL1sync hL1pres hcon with h | h | h
    · exact hkpeekM (hFkey.symm.trans h)
    · have h1 : c.mfa.peekIt.key = c.lru.peekIt.key := hFkey.symm.trans h
      have h2 := Store.hasKey_of_mem hInv.syncM hpeekMmem
      rw [h1] at h2
      exact (Store.not_hasKey_iff _ _).mpr hpeekLmfa h2
    · rw [hFkey] at h
      exact (Store.not_hasKey_iff _ _).mpr hpeekMlru h
  have hL1full :
      ((c.lru.heapPop).1.heapPush
        { key := k, v := v, t := c.t + 1, a := 1, index := 0 }).pq.length =
      ((c.lru.heapPop).1.heapPush
        { key := k, v := v, t := c.t + 1, a := 1, index := 0 }).capacity := by
    rw [hL1len, hL1cap, hfull]
  have hnbL : ¬ (0 <
      ((c.lru.heapPop).1.heapPush
        { key := k, v := v, t := c.t + 1, a := 1, index := 0 }).pq.length ∧
      ((c.lru.heapPop).1.heapPush { key := k, v := v, t := c.t + 1, a := 1, index := 0 }).less
        { key := ((c.mfa.heapPop).2).key, v := ((c.mfa.heapPop).2).v, t := c.t + 1, a := 1, index := 0 }
        ((c.lru.heapPop).1.heapPush
          { key := k, v := v, t := c.t + 1, a := 1, index := 0 }).peekIt) := by
    rintro ⟨_, hless⟩
    have hcmpL1 :
        ((c.lru.heapPop).1.heapPush
          { key := k, v := v, t := c.t + 1, a := 1, index := 0 }).cmp = CmpBy.byTime := by
      rw [hL1cmp]
      exact hInv.cmpL
    rcases Nat.eq_zero_or_pos (c.lru.heapPop).1.pq.length with hA0 | hApos2
    · -- the popped LRU is empty (capacity 1): the peek is the fresh item itself,
      -- and the demoted candidate ties with it (same t, same a = 1)
      have hA : (c.lru.heapPop).1.pq = [] := List.length_eq_zero.mp hA0
      have h0 := peekIt_getElem hL1ne
      rw [hL1pq, hA] at h0
      simp only [List.nil_append, List.getElem?_cons_zero] at h0
      have hpk := Option.some.inj h0
      have hfalse := less_byTime_false_of_ta hcmpL1
        (x := { key := ((c.mfa.heapPop).2).key, v := ((c.mfa.heapPop).2).v, t := c.t + 1, a := 1, index := 0 })
        (y := ((c.lru.heapPop).1.heapPush
          { key := k, v := v, t := c.t + 1, a := 1, index := 0 }).peekIt)
        (by rw [← hpk])
        (by rw [← hpk]; show ¬ ((1 : Nat) < 1); omega)
      rw [hfalse] at hless
      exact Bool.noConfusion hless
    · have hpt :
          ((c.lru.heapPop).1.heapPush
            { key := k, v := v, t := c.t + 1, a := 1, index := 0 }).peekIt.t < c.t + 1 := by
        have h1 := (hroot2 hApos2).2
        omega
      have hfalse := less_false_of_t_gt hcmpL1
        (x := { key := ((c.mfa.heapPop).2).key, v := ((c.mfa.heapPop).2).v, t := c.t + 1, a := 1, index := 0 }) hpt
      rw [hfalse] at hless
      exact Bool.noConfusion hless
  have hput3 :
      ((c.lru.heapPop).1.heapPush
        { key := k, v := v, t := c.t + 1, a := 1, index := 0 }).put (c.t + 1)
        ((c.mfa.heapPop).2).key ((c.mfa.heapPop).2).v 1 =
      ((((c.lru.heapPop).1.heapPush
          { key := k, v := v, t := c.t + 1, a := 1, index := 0 }).heapPop).1.heapPush
        { key := ((c.mfa.heapPop).2).key, v := ((c.mfa.heapPop).2).v, t := c.t + 1, a := 1, index := 0 },
        (((c.lru.heapPop).1.heapPush
          { key := k, v := v, t := c.t + 1, a := 1, index := 0 }).heapPop).2) :=
    store_put_evict habsF1 hL1full hnbL
  obtain ⟨hL2sync, hL2len, hL2cmp, hL2cap, hL2self, hL2pres, hL2gone, hL2data⟩ :=
    pop_push_props hL1sync habsF1 hL1ne (c.t + 1) ((c.mfa.heapPop).2).v 1
  have hL2tb :
      (((((c.lru.heapPop).1.heapPush
        { key := k, v := v, t := c.t + 1, a := 1, index := 0 }).heapPop).1.heapPush
        { key := ((c.mfa.heapPop).2).key, v := ((c.mfa.heapPop).2).v, t := c.t + 1, a := 1, index := 0 })).TBound (c.t + 1) :=
    tbound_pop_push hL1sync habsF1 hL1ne hL1tb (Nat.le_refl (c.t + 1))
  have hdisjL2M1 : ∀ it ∈
      (((((c.lru.heapPop).1.heapPush
        { key := k, v := v, t := c.t + 1, a := 1, index := 0 }).heapPop).1.heapPush
        { key := ((c.mfa.heapPop).2).key, v := ((c.mfa.heapPop).2).v, t := c.t + 1, a := 1, index := 0 })).pq,
      mLookup ((c.mfa.heapPop).1.heapPush { key := ((c.lru.heapPop).2).key, v := ((c.lru.heapPop).2).v, t := c.t + 1, a := ((c.lru.heapPop).2).a, index := 0 }).m
        it.key = none := by
    intro it hmem
    rcases hasKey_cases2 hL1sync hL2sync hL2pres (Store.hasKey_of_mem hL2sync hmem)
      with h | h | h
    · rw [h, hFkey]
      exact hM1gone
    · exact absurd h (key_ne_of_mem_absent hL2sync hmem hL2gone)
    · rcases hasKey_cases2 hInv.syncL hL1sync hL1pres h with h1 | h1 | h1
      · rw [h1]
        exact hlookM1k
      · rw [h1] at h
        exact absurd h ((Store.not_hasKey_iff _ _).mpr hL1gone)
      · rcases Store.mem_of_hasKey hInv.syncL h1 with ⟨z, hz, hzk⟩
        have hz0 : mLookup c.mfa.m it.key = none := by
          rw [← hzk]
          exact hInv.disj z hz
        by_cases hc : it.key = c.mfa.peekIt.key
        · rw [hc]
          exact hM1gone
        · have hxE : it.key ≠ ((c.lru.heapPop).2).key := by
            rw [hEkey]
            intro hcon
            rw [hcon] at h
            exact (Store.not_hasKey_iff _ _).mpr hL1gone h
          exact lookup_none_of_entry_pres hInv.syncM hM1sync (hM1pres it.key hxE hc) hz0
  have hPP3 : ∀ ms : MState, InvPost c
      { lru := ((((c.lru.heapPop).1.heapPush
          { key := k, v := v, t := c.t + 1, a := 1, index := 0 }).heapPop).1.heapPush
          { key := ((c.mfa.heapPop).2).key, v := ((c.mfa.heapPop).2).v, t := c.t + 1, a := 1, index := 0 })
        mfa := (c.mfa.heapPop).1.heapPush { key := ((c.lru.heapPop).2).key, v := ((c.lru.heapPop).2).v, t := c.t + 1, a := ((c.lru.heapPop).2).a, index := 0 }
        t := c.t + 1
        capacity := c.capacity
        m := ms } ∧
      (2 ≤ c.lru.capacity → KeyPut
        { lru := ((((c.lru.heapPop).1.heapPush
            { key := k, v := v, t := c.t + 1, a := 1, index := 0 }).heapPop).1.heapPush
            { key := ((c.mfa.heapPop).2).key, v := ((c.mfa.heapPop).2).v, t := c.t + 1, a := 1, index := 0 })
          mfa := (c.mfa.heapPop).1.heapPush { key := ((c.lru.heapPop).2).key, v := ((c.lru.heapPop).2).v, t := c.t + 1, a := ((c.lru.heapPop).2).a, index := 0 }
          t := c.t + 1
          capacity := c.capacity
          m := ms } k v) := by
    intro ms
    constructor
    · unfold InvPost
      refine ⟨⟨hL2sync, hM1sync, hL2tb, hM1tb, hdisjL2M1, ?_, ?_, ?_, ?_, ?_, ?_⟩, rfl,
        ?_, hM1cap⟩
      · rw [hL2len, hL2cap, hL1len, hL1cap]
        exact hInv.lenL
      · rw [hM1len, hM1cap]
        exact hInv.lenM
      · rw [hL2cmp, hL1cmp]
        exact hInv.cmpL
      · rw [hM1cmp]
        exact hInv.cmpM
      · rw [hL2cap, hL1cap]
        exact hInv.capL
      · rw [hM1cap]
        exact hInv.capM
      · rw [hL2cap, hL1cap]
    · intro hc2
      have hApos : 0 < (c.lru.heapPop).1.pq.length := by
        rw [hPlen, hfull]
        omega
      have hkL1peek := (hroot2 hApos).1
      have hL2k :
          (((((c.lru.heapPop).1.heapPush
            { key := k, v := v, t := c.t + 1, a := 1, index := 0 }).heapPop).1.heapPush
            { key := ((c.mfa.heapPop).2).key, v := ((c.mfa.heapPop).2).v, t := c.t + 1, a := 1, index := 0 })).entry k = some (v, c.t + 1, 1) := by
        rw [hL2pres k hkF hkL1peek]
        exact hL1self
      exact ⟨c.t + 1, 1, Or.inr ⟨hL2k, hlookM1k⟩⟩
  by_cases hGn : ((((c.lru.heapPop).1.heapPush
      { key := k, v := v, t := c.t + 1, a := 1, index := 0 }).heapPop).2).v.isNone = true
  · have hEQ : Cache.Put c k v =
        { lru := ((((c.lru.heapPop).1.heapPush
            { key := k, v := v, t := c.t + 1, a := 1, index := 0 }).heapPop).1.heapPush
            { key := ((c.mfa.heapPop).2).key, v := ((c.mfa.heapPop).2).v, t := c.t + 1, a := 1, index := 0 })
          mfa := (c.mfa.heapPop).1.heapPush { key := ((c.lru.heapPop).2).key, v := ((c.lru.heapPop).2).v, t := c.t + 1, a := ((c.lru.heapPop).2).a, index := 0 }
          t := c.t + 1
          capacity := c.capacity
          m := c.m } := by
      unfold Cache.Put
      rw [tick_no_wrap c ht]
      simp only [store_update_miss hm, store_update_miss hl, hput1, hEn, Store.len,
        Store.capFn, hroom, hD, hput2, hFn, hS, hput3, hGn]
      simp
    rw [hEQ]
    exact ⟨(hPP3 c.m).1, (hPP3 c.m).2,
      fun hpre => ⟨fun hEq => absurd hEq.1 hM1ne, fun hDt => absurd hDt hD⟩⟩
  · have hEQ : Cache.Put c k v =
        { lru := ((((c.lru.heapPop).1.heapPush
            { key := k, v := v, t := c.t + 1, a := 1, index := 0 }).heapPop).1.heapPush
            { key := ((c.mfa.heapPop).2).key, v := ((c.mfa.heapPop).2).v, t := c.t + 1, a := 1, index := 0 })
          mfa := (c.mfa.heapPop).1.heapPush { key := ((c.lru.heapPop).2).key, v := ((c.lru.heapPop).2).v, t := c.t + 1, a := ((c.lru.heapPop).2).a, index := 0 }
          t := c.t + 1
          capacity := c.capacity
          m := c.m.evict ((((c.lru.heapPop).1.heapPush
            { key := k, v := v, t := c.t + 1, a := 1, index := 0 }).heapPop).2).key } := by
      unfold Cache.Put
      rw [tick_no_wrap c ht]
      simp only [store_update_miss hm, store_update_miss hl, hput1, hEn, Store.len,
        Store.capFn, hroom, hD, hput2, hFn, hS, hput3, hGn]
      simp
    rw [hEQ]
    refine ⟨(hPP3 _).1, (hPP3 _).2,
      fun hpre => ⟨fun hEq => absurd hEq.1 hM1ne, fun hDt => absurd hDt hD⟩⟩

theorem Put_step {α : Type} {c : Cache α} (hInv : CacheInv c) (k : String) (v : Option α)
    (ht : c.t + 1 < uintMod) (hcap2 : 2 ≤ c.lru.capacity) :
    PutPost c (Cache.Put c k v) k v := by
  cases hq : mLookup c.mfa.m k with
  | some i => exact put_step_mfa_update hInv k v ht hq
  | none =>
    cases hlq : mLookup c.lru.m k with
    | some i => exact put_step_lru_update hInv k v ht hq hlq
    | none =>
      by_cases hf : c.lru.pq.length = c.lru.capacity
      · obtain ⟨h1, h2, h3⟩ := put_step_full hInv k v ht hq hlq hf
        exact ⟨h1, h2 hcap2⟩
      · exact put_step_insert hInv k v ht hq hlq hf

theorem Put_step_inv {α : Type} {c : Cache α} (hInv : CacheInv c) (k : String) (v : Option α)
    (ht : c.t + 1 < uintMod) :
    InvPost c (Cache.Put c k v) := by
  cases hq : mLookup c.mfa.m k with
  | some i => exact (put_step_mfa_update hInv k v ht hq).1
  | none =>
    cases hlq : mLookup c.lru.m k with
    | some i => exact (put_step_lru_update hInv k v ht hq hlq).1
    | none =>
      by_cases hf : c.lru.pq.length = c.lru.capacity
      · exact (put_step_full hInv k v ht hq hlq hf).1
      · exact (put_step_insert hInv k v ht hq hlq hf).1

theorem Get_step {α : Type} {c : Cache α} (hInv : CacheInv c) (k : String)
    (ht : c.t + 1 < uintMod) :
    InvPost c (Cache.Get c k).2 := by
  unfold InvPost
  cases hq : mLookup c.mfa.m k with
  | some i =>
    obtain ⟨it0, hit, hk, hEQ⟩ := cache_get_mfa_hit_eq ht hInv.syncM hq
    obtain ⟨hs2, hslen, hscmp, hscap, hsself, hspres, hsdata⟩ :=
      updateUnchecked_props hInv.syncM hit (c.t + 1) it0.v 1
    rw [hEQ]
    refine ⟨⟨hInv.syncL, hs2, hInv.tbL.mono (Nat.le_succ c.t), ?_, ?_, hInv.lenL, ?_,
      hInv.cmpL, hscmp ▸ hInv.cmpM, hInv.capL, hscap ▸ hInv.capM⟩, rfl, rfl, hscap⟩
    · intro y hy
      rcases hsdata y hy with ⟨z, hz, hd⟩ | h
      · have : z.t = y.t := congrArg (fun d => d.2.2.1) hd
        exact this ▸ le_trans (hInv.tbM z hz) (Nat.le_succ c.t)
      · exact h.le
    · intro it hmem
      have hne : it.key ≠ k := by
        intro hcon
        have := hInv.disj it hmem
        rw [hcon, hq] at this
        exact Option.noConfusion this
      exact lookup_none_of_entry_pres hInv.syncM hs2
        (hspres it.key (fun hcon => hne (hcon.trans hk)))
        (hInv.disj it hmem)
    · rw [hslen, hscap]
      exact hInv.lenM
  | none =>
    cases hlq : mLookup c.lru.m k with
    | some i =>
      obtain ⟨it0, hit, hk, hEQ⟩ := cache_get_lru_hit_eq ht hInv.syncL hq hlq
      obtain ⟨hs2, hslen, hscmp, hscap, hsself, hspres, hsdata⟩ :=
        updateUnchecked_props hInv.syncL hit (c.t + 1) it0.v 1
      rw [hEQ]
      refine ⟨⟨hs2, hInv.syncM, ?_, hInv.tbM.mono (Nat.le_succ c.t), ?_, ?_, hInv.lenM,
        hscmp ▸ hInv.cmpL, hInv.cmpM, hscap ▸ hInv.capL, hInv.capM⟩, rfl, hscap, rfl⟩
      · intro y hy
        rcases hsdata y hy with ⟨z, hz, hd⟩ | h
        · have : z.t = y.t := congrArg (fun d => d.2.2.1) hd
          exact this ▸ le_trans (hInv.tbL z hz) (Nat.le_succ c.t)
        · exact h.le
      · intro it hmem
        rcases hasKey_cases hInv.syncL hs2 hspres (Store.hasKey_of_mem hs2 hmem) with h | h
        · rw [h]
          exact hInv.disj it0 (List.getElem?_mem hit)
        · rcases Store.mem_of_hasKey hInv.syncL h with ⟨z, hz, hzk⟩
          rw [← hzk]
          exact hInv.disj z hz
      · rw [hslen, hscap]
        exact hInv.lenL
    | none =>
      rw [cache_get_miss_eq ht hq hlq]
      exact ⟨⟨hInv.syncL, hInv.syncM, hInv.tbL.mono (Nat.le_succ c.t),
        hInv.tbM.mono (Nat.le_succ c.t), hInv.disj, hInv.lenL, hInv.lenM, hInv.cmpL,
        hInv.cmpM, hInv.capL, hInv.capM⟩, rfl, rfl, rfl⟩

theorem get_hit_of_mfa_entry {α : Type} {c : Cache α} (hInv : CacheInv c)
    (ht : c.t + 1 < uintMod) {k : String} {v : Option α} {tt aa : Nat}
    (hent : c.mfa.entry k = some (v, tt, aa)) :
    (Cache.Get c k).1 = (v, true) := by
  unfold Store.entry at hent
  cases hq : mLookup c.mfa.m k with
  | none =>
    rw [hq] at hent
    exact Option.noConfusion hent
  | some i =>
    rw [hq] at hent
    rw [Option.some_bind] at hent
    rcases Option.map_eq_some'.mp hent with ⟨it0, hit0, hd⟩
    obtain ⟨it1, hit1, hk1, hEQ⟩ := cache_get_mfa_hit_eq ht hInv.syncM hq
    have hsame : it0 = it1 := by
      rw [hit0] at hit1
      exact Option.some.inj hit1
    have hv : it1.v = v := by
      rw [← hsame]
      exact congrArg (fun d => d.1) hd
    rw [hEQ]
    rw [hv]

theorem get_hit_of_lru_entry {α : Type} {c : Cache α} (hInv : CacheInv c)
    (ht : c.t + 1 < uintMod) {k : String} {v : Option α} {tt aa : Nat}
    (hm : mLookup c.mfa.m k = none) (hent : c.lru.entry k = some (v, tt, aa)) :
    (Cache.Get c k).1 = (v, true) := by
  unfold Store.entry at hent
  cases hq : mLookup c.lru.m k with
  | none =>
    rw [hq] at hent
    exact Option.noConfusion hent
  | some i =>
    rw [hq] at hent
    rw [Option.some_bind] at hent
    rcases Option.map_eq_some'.mp hent with ⟨it0, hit0, hd⟩
    obtain ⟨it1, hit1, hk1, hEQ⟩ := cache_get_lru_hit_eq ht hInv.syncL hm hq
    have hsame : it0 = it1 := by
      rw [hit0] at hit1
      exact Option.some.inj hit1
    have hv : it1.v = v := by
      rw [← hsame]
      exact congrArg (fun d => d.1) hd
    rw [hEQ]
    rw [hv]

theorem runOps_inv {α : Type} (ops : List (CacheOp α)) :
    ∀ c0 : Cache α, CacheInv c0 → c0.t + ops.length < uintMod →
    CacheInv (runOps c0 ops) ∧ (runOps c0 ops).t = c0.t + ops.length ∧
    (runOps c0 ops).lru.capacity = c0.lru.capacity ∧
    (runOps c0 ops).mfa.capacity = c0.mfa.capacity := by
  induction ops with
  | nil =>
    intro c0 h hb
    exact ⟨h, rfl, rfl, rfl⟩
  | cons op ops ih =>
    intro c0 h hb
    rw [List.length_cons] at hb
    have hb1 : c0.t + 1 < uintMod := by omega
    have hstep : InvPost c0 (execOp c0 op) := by
      cases op with
      | get k2 => exact Get_step h k2 hb1
      | put k2 v2 => exact Put_step_inv h k2 v2 hb1
    obtain ⟨hI1, hT1, hCL1, hCM1⟩ := hstep
    have hrun : runOps c0 (op :: ops) = runOps (execOp c0 op) ops := rfl
    obtain ⟨hI2, hT2, hCL2, hCM2⟩ := ih (execOp c0 op) hI1 (by rw [hT1]; omega)
    rw [hrun]
    refine ⟨hI2, ?_, hCL2.trans hCL1, hCM2.trans hCM1⟩
    rw [hT2, hT1, List.length_cons]
    omega

theorem c5core {α : Type} (c0 : Cache α) (hInv : CacheInv c0) (hcap2 : 2 ≤ c0.lru.capacity)
    (ops : List (CacheOp α)) (hb : c0.t + ops.length + 2 < uintMod) (k : String)
    (v : Option α) :
    (Cache.Get (Cache.Put (runOps c0 ops) k v) k).1 = (v, true) := by
  obtain ⟨hI, hT, hCL, hCM⟩ := runOps_inv ops c0 hInv (by omega)
  have ht1 : (runOps c0 ops).t + 1 < uintMod := by
    rw [hT]
    omega
  obtain ⟨⟨hI2, hT2, hCL2, hCM2⟩, tt, aa, hcase⟩ :=
    Put_step hI k v ht1 (by rw [hCL]; exact hcap2)
  have ht2 : (Cache.Put (runOps c0 ops) k v).t + 1 < uintMod := by
    rw [hT2, hT]
    omega
  rcases hcase with h | ⟨h1, h2⟩
  · exact get_hit_of_mfa_entry hI2 ht2 h
  · exact get_hit_of_lru_entry hI2 ht2 h2 h1

theorem newStore_sync {α : Type} (size : Nat) (cmp : CmpBy) :
    (newStore size cmp : Store α).Sync := by
  unfold Store.Sync newStore
  refine ⟨?_, ?_, ?_⟩
  · intro p hp
    exact absurd hp (List.not_mem_nil p)
  · intro i hi
    simp at hi
  · simp

theorem newCache_props {α : Type} (size : Int) (evict : Bool) (c0 : Cache α)
    (h : NewCache α size evict = some c0) :
    CacheInv c0 ∧ c0.t = 0 ∧ c0.lru.capacity = size.toNat / 2 ∧
    c0.mfa.capacity = size.toNat / 2 + size.toNat % 2 ∧
    c0.m = newMetrics size.toNat evict := by
  unfold NewCache at h
  by_cases h1 : size ≤ 0
  · rw [if_pos h1] at h
    exact Option.noConfusion h
  rw [if_neg h1] at h
  by_cases h2 : size < 2
  · rw [if_pos h2] at h
    exact Option.noConfusion h
  rw [if_neg h2] at h
  by_cases h3 : maxsize < size.toNat
  · rw [if_pos h3] at h
    exact Option.noConfusion h
  rw [if_neg h3] at h
  have hc := Option.some.inj h
  subst hc
  refine ⟨⟨newStore_sync _ _, newStore_sync _ _, ?_, ?_, ?_, Nat.zero_le _, Nat.zero_le _,
    rfl, rfl, ?_, ?_⟩, rfl, rfl, rfl, rfl⟩
  · intro it hit
    exact absurd hit (List.not_mem_nil it)
  · intro it hit
    exact absurd hit (List.not_mem_nil it)
  · intro it hit
    exact absurd hit (List.not_mem_nil it)
  · show 0 < size.toNat / 2
    omega
  · show 0 < size.toNat / 2 + size.toNat % 2
    omega

/-- C5 (amended): for every cache successfully built by `NewCache` with
`size ≥ 4` (so that the LRU half holds at least 2 items), every reachable
state — any operation sequence short enough that the 64-bit clock cannot
wrap — and every key and value, `Put(k, v)` followed immediately by
`Get(k)` returns `(v, true)`.  At sizes 2 and 3 the LRU half has capacity
1 and the claim is false (see the counterexample). -/
theorem claim_C5_amended {α : Type} (size : Int) (evict : Bool) (c0 : Cache α)
    (hnew : NewCache α size evict = some c0) (h4 : 4 ≤ size)
    (ops : List (CacheOp α)) (hops : ops.length + 2 < uintMod) (k : String)
    (v : Option α) :
    (Cache.Get (Cache.Put (runOps c0 ops) k v) k).1 = (v, true) := by
  obtain ⟨hInv, ht0, hcl, hcm, hm0⟩ := newCache_props size evict c0 hnew
  have hcap2 : 2 ≤ c0.lru.capacity := by
    rw [hcl]
    omega
  apply c5core c0 hInv hcap2 ops ?_ k v
  rw [ht0]
  omega

/-- Counterexample to C5 as stated: in the capacity-2 cache built by
`NewCache(2, false)` (accepted by the constructor, so "capacity at least
2" holds), after the reachable state `runOps cacheS2 c5ops`, a fresh
`Put("C", "c")` followed immediately by `Get("C")` returns
`(none, false)`, not `(some "c", true)`: the demotion cascade of `Put`
evicts the just-inserted key from the capacity-1 LRU half. -/
theorem claim_C5_counterexample :
    NewCache String 2 false = some cacheS2 ∧
    (Cache.Get (Cache.Put (runOps cacheS2 c5ops) "C" (some "c")) "C").1 = (none, false) := by
  constructor
  · rfl
  · decide

/-- Witness instantiating `claim_C5_amended` at size 4 with no prior
operations. -/
theorem claim_C5_amended_witness :
    (Cache.Get (Cache.Put (runOps cacheN4 []) "k" (some 0)) "k").1 = (some 0, true) :=
  claim_C5_amended 4 false cacheN4 rfl (by decide) [] (by decide) "k" (some 0)

/-- C1 (amended): when `Put` of an absent key evicts an item `E` from the
full LRU store and the MFA store is full (and `E` carries a value), `E`
is dropped — the MFA store is left unchanged and the eviction of `E.key`
is recorded — exactly when the MFA minimum strictly dominates `E` under
the code's ordering: strictly more accesses, or equally many accesses
and strictly OLDER logical time `t` (`peek.t < E.t`); in every other
case `E` is offered to the MFA store via `put`.  The original claim's
tie-break direction ("strictly newer `t`") is reversed relative to the
code. -/
theorem claim_C1_amended {α : Type} {c : Cache α} (hInv : CacheInv c) (k : String)
    (v : Option α) (ht : c.t + 1 < uintMod)
    (hm : mLookup c.mfa.m k = none) (hl : mLookup c.lru.m k = none)
    (hfull : c.lru.pq.length = c.lru.capacity)
    (hMfull : c.mfa.capacity ≤ c.mfa.pq.length)
    (hEv : ((c.lru.heapPop).2).v.isNone = false) :
    ((Cache.Put c k v).mfa = c.mfa ∧
        (Cache.Put c k v).m = c.m.evict ((c.lru.heapPop).2).key) ↔
      (c.mfa.peekIt.a > ((c.lru.heapPop).2).a ∨
        (c.mfa.peekIt.a = ((c.lru.heapPop).2).a ∧
          c.mfa.peekIt.t < ((c.lru.heapPop).2).t)) :=
  (put_step_full hInv k v ht hm hl hfull).2.2 ⟨hEv, hMfull⟩

/-- Witness instantiating `claim_C1_amended`: after `c1wops` in the
capacity-2 cache the MFA minimum has strictly more accesses than the LRU
overflow, and `Put` indeed leaves the MFA store unchanged and records
the eviction. -/
theorem claim_C1_amended_witness :
    ((Cache.Put (runOps cacheS2 c1wops) "C" (some "c")).mfa = (runOps cacheS2 c1wops).mfa ∧
        (Cache.Put (runOps cacheS2 c1wops) "C" (some "c")).m =
          (runOps cacheS2 c1wops).m.evict
            ((((runOps cacheS2 c1wops).lru.heapPop)).2).key) ↔
      ((runOps cacheS2 c1wops).mfa.peekIt.a >
          ((((runOps cacheS2 c1wops).lru.heapPop)).2).a ∨
        ((runOps cacheS2 c1wops).mfa.peekIt.a =
            ((((runOps cacheS2 c1wops).lru.heapPop)).2).a ∧
          (runOps cacheS2 c1wops).mfa.peekIt.t <
            ((((runOps cacheS2 c1wops).lru.heapPop)).2).t)) := by
  have hInv0 := (newCache_props 2 false cacheS2 rfl).1
  obtain ⟨hI, hT, hc1, hc2⟩ := runOps_inv c1wops cacheS2 hInv0 (by decide)
  exact claim_C1_amended hI "C" (some "c") (by rw [hT]; decide) (by decide) (by decide)
    (by decide) (by decide) (by decide)

/-- Counterexample to C1 as stated: after `c1ops` in the capacity-2
cache, inserting the new key `"C"` evicts `E = B` from the full LRU
while the MFA store is full, and the MFA minimum (`A`) has equally many
accesses as `E` and strictly NEWER time — the spec's stated drop
condition holds — yet `Put` does not drop `E`: the MFA store changes
(`E` is offered to it and accepted). -/
theorem claim_C1_counterexample :
    NewCache String 2 false = some cacheS2 ∧
    (runOps cacheS2 c1ops).lru.pq.length = (runOps cacheS2 c1ops).lru.capacity ∧
    (runOps cacheS2 c1ops).mfa.pq.length = (runOps cacheS2 c1ops).mfa.capacity ∧
    mLookup (runOps cacheS2 c1ops).mfa.m "C" = none ∧
    mLookup (runOps cacheS2 c1ops).lru.m "C" = none ∧
    (((runOps cacheS2 c1ops).lru.heapPop).2).v.isNone = false ∧
    (runOps cacheS2 c1ops).mfa.peekIt.a = (((runOps cacheS2 c1ops).lru.heapPop).2).a ∧
    (((runOps cacheS2 c1ops).lru.heapPop).2).t < (runOps cacheS2 c1ops).mfa.peekIt.t ∧
    (Cache.Put (runOps cacheS2 c1ops) "C" (some "c")).mfa ≠ (runOps cacheS2 c1ops).mfa := by
  refine ⟨rfl, ?_, ?_, ?_, ?_, ?_, ?_, ?_, ?_⟩ <;> decide

/-- C2: the spec demands that each resolve task send exactly one value
on the bounded responses channel; the source violates it — on the error
and nil-response paths the task sends twice (`resps <- nil` followed by
the unconditional `resps <- r`), so the claim holds of the success path
but fails on the error paths.  This is a bug in the code, acknowledged
by the spec ("implementers should enforce this invariant rather than
replicate the source bug"). -/
theorem claim_C2 :
    (taskSends (some rW) false).length = 1 ∧
    (taskSends none true).length = 2 ∧
    (taskSends none false).length = 2 ∧
    (taskSends (some rW) true).length = 2 := by
  refine ⟨rfl, rfl, rfl, rfl⟩

/-- C3: when the wrapper's `get` hits a stored entry whose absolute
expiry lies strictly before `now`, it returns the stored message (id
rewritten to the query's) with every answer TTL forced to 60 seconds,
and the hit flag `false`. -/
theorem claim_C3 (pc : PCache) (now : Nat) (mk : Msg) (v : CacheValue)
    (hget : (Cache.Get pc.c (msgKey mk)).1 = (some v, true)) (hexp : v.exp < now) :
    (PCache.get pc now mk).1 =
      (some { v.m with
        id := mk.id
        answer := v.m.answer.map (fun a => { a with ttl := 60 }) }, false) := by
  unfold PCache.get
  rcases hq : Cache.Get pc.c (msgKey mk) with ⟨⟨rv, rb⟩, rc⟩
  rw [hq] at hget
  have h1 : rv = some v := congrArg Prod.fst hget
  have h2 : rb = true := congrArg Prod.snd hget
  subst h1
  subst h2
  simp [hq, hexp]

/-- C4: the wrapper's `put(q, r)` with `r.rcode ≠ NOERROR` stores
nothing: the wrapper state is unchanged, and any subsequent `get`
behaves exactly as if the `put` had never happened. -/
theorem claim_C4 (pc : PCache) (now : Nat) (k v : Msg) (h : v.rcode ≠ 0) :
    PCache.put pc now k v = pc ∧
    ∀ now2 mk, PCache.get (PCache.put pc now k v) now2 mk = PCache.get pc now2 mk := by
  have h1 : PCache.put pc now k v = pc := by
    unfold PCache.put
    simp [h]
  exact ⟨h1, fun now2 mk => by rw [h1]⟩

/-- C6: on a fresh (non-expired) hit the wrapper's `get` sets each
answer TTL to `floor((exp − now) in seconds)` clamped to
`[minTTL, maxTTL]`.  The code only clamps from below; the hypothesis
`hbound` — automatic for every entry the wrapper's `put` stores, whose
expiry is at most `now + maxTTL` — makes the upper clamp vacuous, so the
code agrees with the spec's two-sided clamp. -/
theorem claim_C6 (pc : PCache) (now : Nat) (mk : Msg) (v : CacheValue)
    (hget : (Cache.Get pc.c (msgKey mk)).1 = (some v, true)) (hexp : ¬ v.exp < now)
    (hbound : (v.exp - now) / nsPerSec ≤ maxTTLsecs) :
    (PCache.get pc now mk).1 =
      (some { v.m with
        id := mk.id
        answer := v.m.answer.map (fun a =>
          { a with ttl := min maxTTLsecs (max minTTLsecs ((v.exp - now) / nsPerSec)) }) },
        true) := by
  have httl : (if (v.exp - now) / nsPerSec < minTTLsecs then minTTLsecs
      else (v.exp - now) / nsPerSec)
      = min maxTTLsecs (max minTTLsecs ((v.exp - now) / nsPerSec)) := by
    have hm : minTTLsecs ≤ maxTTLsecs := by decide
    by_cases hlt : (v.exp - now) / nsPerSec < minTTLsecs
    · rw [if_pos hlt]
      omega
    · rw [if_neg hlt]
      omega
  unfold PCache.get
  rcases hq : Cache.Get pc.c (msgKey mk) with ⟨⟨rv, rb⟩, rc⟩
  rw [hq] at hget
  have h1 : rv = some v := congrArg Prod.fst hget
  have h2 : rb = true := congrArg Prod.snd hget
  subst h1
  subst h2
  rw [← httl]
  simp [hq, hexp]

/-- C10: `put(q, r)` of a NOERROR response with empty answer section
stores it with absolute expiry `now + maxTTL` (2^31−1 seconds), and any
subsequent `get` of that question at a time `now2` within the horizon is
served as a fresh cache hit (`true`, no refresh). -/
theorem claim_C10 {pc : PCache} (hInv : CacheInv pc.c) (hcap2 : 2 ≤ pc.c.lru.capacity)
    (ht : pc.c.t + 2 < uintMod) (now : Nat) (k v : Msg)
    (h0 : v.rcode = 0) (hans : v.answer = [])
    (now2 : Nat) (hhor : now2 ≤ now + maxTTLsecs * nsPerSec) (mk : Msg)
    (hkey : msgKey mk = msgKey k) :
    PCache.put pc now k v =
      ⟨Cache.Put pc.c (msgKey k)
        (some ⟨{ v with truncated := false, compress := true },
          now + maxTTLsecs * nsPerSec⟩)⟩ ∧
    (PCache.get (PCache.put pc now k v) now2 mk).1 =
      (some { v with id := mk.id, truncated := false, compress := true }, true) := by
  have hput : PCache.put pc now k v =
      ⟨Cache.Put pc.c (msgKey k)
        (some ⟨{ v with truncated := false, compress := true },
          now + maxTTLsecs * nsPerSec⟩)⟩ := by
    unfold PCache.put
    rw [hans]
    simp [h0]
  refine ⟨hput, ?_⟩
  rw [hput]
  have hg : (Cache.Get (Cache.Put pc.c (msgKey k)
      (some ⟨{ v with truncated := false, compress := true },
        now + maxTTLsecs * nsPerSec⟩)) (msgKey k)).1 =
      (some ⟨{ v with truncated := false, compress := true },
        now + maxTTLsecs * nsPerSec⟩, true) :=
    c5core pc.c hInv hcap2 [] (by simp only [List.length_nil]; omega) (msgKey k)
      (some ⟨{ v with truncated := false, compress := true },
        now + maxTTLsecs * nsPerSec⟩)
  unfold PCache.get
  rw [hkey]
  rcases hq : Cache.Get (Cache.Put pc.c (msgKey k)
      (some ⟨{ v with truncated := false, compress := true },
        now + maxTTLsecs * nsPerSec⟩)) (msgKey k) with ⟨⟨rv, rb⟩, rc⟩
  rw [hq] at hg
  have h1 : rv = some ⟨{ v with truncated := false, compress := true },
      now + maxTTLsecs * nsPerSec⟩ := congrArg Prod.fst hg
  have h2 : rb = true := congrArg Prod.snd hg
  subst h1
  subst h2
  have hnexp : ¬ (now + maxTTLsecs * nsPerSec < now2) := by omega
  rw [hans] at hq
  simp [hq, hnexp, hans]

/-- Witness instantiating `claim_C3`: the entry stored by `put(qW, rW)`
expires at 300 s; reading it at 400 s yields TTL-60 answers and `false`. -/
theorem claim_C3_witness :
    (PCache.get (PCache.put pcW 0 qW rW) (400 * nsPerSec) qW).1 =
      (some { id := 7, rcode := 0, truncated := false, compress := true, question := ["qexample"], answer := [{ ttl := 60, rest := "A 1.2.3.4" }] },
        false) :=
  claim_C3 (PCache.put pcW 0 qW rW) (400 * nsPerSec) qW
    ⟨{ rW with truncated := false, compress := true }, 300 * nsPerSec⟩
    (by decide) (by decide)

/-- Witness instantiating `claim_C4`: a SERVFAIL response is not cached
and a later read is unaffected. -/
theorem claim_C4_witness :
    PCache.put pcW 5 qW rErr = pcW ∧
    PCache.get (PCache.put pcW 5 qW rErr) 7 qW = PCache.get pcW 7 qW :=
  ⟨(claim_C4 pcW 5 qW rErr (by decide)).1,
    (claim_C4 pcW 5 qW rErr (by decide)).2 7 qW⟩

/-- Witness instantiating `claim_C6`: reading the 300-s entry at 100 s
leaves 200 s of life, clamped up to the 300-s floor. -/
theorem claim_C6_witness :
    (PCache.get (PCache.put pcW 0 qW rW) (100 * nsPerSec) qW).1 =
      (some { id := 7, rcode := 0, truncated := false, compress := true, question := ["qexample"], answer := [{ ttl := 300, rest := "A 1.2.3.4" }] },
        true) := by
  have h := claim_C6 (PCache.put pcW 0 qW rW) (100 * nsPerSec) qW
    ⟨{ rW with truncated := false, compress := true }, 300 * nsPerSec⟩
    (by decide) (by decide) (by decide)
  rw [h]
  rfl

/-- Witness instantiating `claim_C10`: an empty-answer NOERROR response
is stored with expiry `maxTTL` and read back as a fresh hit 5 s later. -/
theorem claim_C10_witness :
    PCache.put pcW 0 qW rEmpty =
      ⟨Cache.Put pcW.c (msgKey qW)
        (some ⟨{ rEmpty with truncated := false, compress := true },
          0 + maxTTLsecs * nsPerSec⟩)⟩ ∧
    (PCache.get (PCache.put pcW 0 qW rEmpty) (5 * nsPerSec) qW).1 =
      (some { rEmpty with id := 7, truncated := false, compress := true }, true) :=
  @claim_C10 pcW ((newCache_props 4 false cacheCV4 rfl).1) (by decide) (by decide)
    0 qW rEmpty rfl rfl (5 * nsPerSec) (by decide) qW rfl

/-! ### C7 and C8: put on a full store -/

theorem less_irrefl {α : Type} (s : Store α) (x : Item α) : s.less x x = false := by
  unfold Store.less
  cases s.cmp <;> simp

theorem less_false_char_byTime {α : Type} (s : Store α) (hc : s.cmp = CmpBy.byTime)
    (x y : Item α) :
    s.less x y = false ↔ (y.t < x.t ∨ (x.t = y.t ∧ y.a ≤ x.a)) := by
  unfold Store.less
  rw [hc]
  by_cases h : x.t = y.t <;> simp [h] <;> omega

theorem less_false_char_byAcc {α : Type} (s : Store α) (hc : s.cmp = CmpBy.byAccesses)
    (x y : Item α) :
    s.less x y = false ↔ (y.a < x.a ∨ (x.a = y.a ∧ y.t ≤ x.t)) := by
  unfold Store.less
  rw [hc]
  by_cases h : x.a = y.a <;> simp [h] <;> omega

theorem less_trans_false {α : Type} (s : Store α) {x y z : Item α}
    (h1 : s.less x y = false) (h2 : s.less y z = false) : s.less x z = false := by
  cases hc : s.cmp
  · rw [less_false_char_byTime s hc] at h1 h2 ⊢
    omega
  · rw [less_false_char_byAcc s hc] at h1 h2 ⊢
    omega

theorem peekIt_eq_getD {α : Type} {s : Store α} (hpos : 0 < s.pq.length) :
    s.peekIt = s.pq.getD 0 Item.zero := by
  unfold Store.peekIt
  cases hpq : s.pq with
  | nil =>
    rw [hpq] at hpos
    simp at hpos
  | cons a l => rfl

theorem isHeap_root_min {α : Type} {s : Store α} (hh : s.IsHeap) :
    ∀ j, j < s.pq.length →
      s.less (s.pq.getD j Item.zero) (s.pq.getD 0 Item.zero) = false := by
  intro j
  induction j using Nat.strong_induction_on with
  | _ j ih =>
    intro hj
    rcases Nat.eq_zero_or_pos j with rfl | hpos
    · exact less_irrefl s _
    · have hp := hh j hj hpos
      have hlt : (j - 1) / 2 < j := by omega
      exact less_trans_false s hp (ih ((j - 1) / 2) hlt (by omega))

/-- C7: on a full store (with the container/heap invariant, so that the
root `peekIt` really is the store's minimum) and an absent key, `put`
bounces — returns the candidate unchanged without modifying the store —
exactly when the candidate is strictly `less` than the minimum;
otherwise it pops the minimum, returns it as the evicted item, and
inserts the candidate. -/
theorem claim_C7 {α : Type} {s : Store α} (hh : s.IsHeap) {k : String}
    (habs : mLookup s.m k = none) (hfull : s.pq.length = s.capacity)
    (hpos : 0 < s.pq.length) (now : Nat) (v : Option α) (sc : Nat) :
    (∀ it ∈ s.pq, s.less it s.peekIt = false) ∧
    (s.less { key := k, v := v, t := now, a := sc, index := 0 } s.peekIt = true →
      s.put now k v sc = (s, { key := k, v := v, t := now, a := sc, index := 0 })) ∧
    (s.less { key := k, v := v, t := now, a := sc, index := 0 } s.peekIt = false →
      s.put now k v sc =
        ((s.heapPop).1.heapPush { key := k, v := v, t := now, a := sc, index := 0 },
          (s.heapPop).2)) := by
  refine ⟨?_, ?_, ?_⟩
  · intro it hit
    rcases List.mem_iff_getElem?.mp hit with ⟨i, hi⟩
    have hilen : i < s.pq.length := by
      by_contra hcon
      rw [List.getElem?_eq_none (Nat.le_of_not_lt hcon)] at hi
      exact Option.noConfusion hi
    have hd : s.pq.getD i Item.zero = it := getD_of_getElem? _ hi
    rw [peekIt_eq_getD hpos, ← hd]
    exact isHeap_root_min hh i hilen
  · intro h
    exact store_put_bounce habs hfull ⟨hpos, h⟩
  · intro h
    apply store_put_evict habs hfull
    rintro ⟨_, hl⟩
    rw [h] at hl
    exact Bool.noConfusion hl

/-- Witness instantiating `claim_C7` on the concrete full store `c7s`. -/
theorem claim_C7_witness :
    c7s.IsHeap ∧ mLookup c7s.m "C" = none ∧ c7s.pq.length = c7s.capacity ∧
    0 < c7s.pq.length ∧
    ((∀ it ∈ c7s.pq, c7s.less it c7s.peekIt = false) ∧
      (c7s.less { key := "C", v := some "c", t := 0, a := 1, index := 0 } c7s.peekIt = true →
        c7s.put 0 "C" (some "c") 1 =
          (c7s, { key := "C", v := some "c", t := 0, a := 1, index := 0 })) ∧
      (c7s.less { key := "C", v := some "c", t := 0, a := 1, index := 0 } c7s.peekIt = false →
        c7s.put 0 "C" (some "c") 1 =
          ((c7s.heapPop).1.heapPush { key := "C", v := some "c", t := 0, a := 1, index := 0 },
            (c7s.heapPop).2))) := by
  refine ⟨?_, ?_, ?_, ?_, claim_C7 (by decide) (by decide) (by decide) (by decide)
    0 (some "c") 1⟩ <;> decide

/-- C8 (amended): on a full store and an absent key, a candidate that
compares equal to the current minimum (same `t` and same `a`, so neither
is `less` than the other) does NOT bounce: `put` pops the minimum —
returned as the evicted item — and inserts the candidate.  The strict
`less` in the bounce test means ties are accepted, not rejected. -/
theorem claim_C8_amended {α : Type} {s : Store α} {k : String}
    (habs : mLookup s.m k = none) (hfull : s.pq.length = s.capacity)
    (hpos : 0 < s.pq.length) {now sc : Nat} {v : Option α}
    (hteq : now = s.peekIt.t) (haeq : sc = s.peekIt.a) :
    s.put now k v sc =
      ((s.heapPop).1.heapPush { key := k, v := v, t := now, a := sc, index := 0 },
        (s.heapPop).2) := by
  apply store_put_evict habs hfull
  rintro ⟨_, hless⟩
  have hfalse : s.less { key := k, v := v, t := now, a := sc, index := 0 } s.peekIt
      = false := by
    unfold Store.less
    cases s.cmp <;> simp [hteq, haeq]
  rw [hfalse] at hless
  exact Bool.noConfusion hless

/-- Witness instantiating `claim_C8_amended` on the concrete full store
`c8s`, whose minimum is A with `t = 1`, `a = 1`. -/
theorem claim_C8_amended_witness :
    mLookup c8s.m "B" = none ∧ c8s.pq.length = c8s.capacity ∧ 0 < c8s.pq.length ∧
    (1 : Nat) = c8s.peekIt.t ∧ (1 : Nat) = c8s.peekIt.a ∧
    c8s.put 1 "B" (some "b") 1 =
      ((c8s.heapPop).1.heapPush { key := "B", v := some "b", t := 1, a := 1, index := 0 },
        (c8s.heapPop).2) := by
  refine ⟨?_, ?_, ?_, ?_, ?_,
    claim_C8_amended (by decide) (by decide) (by decide) (by decide) (by decide)⟩ <;> decide

/-- Counterexample to C8 as stated: in the full store `c8s` the candidate
B (`t = 1`, `a = 1`) compares equal to the minimum A (`t = 1`, `a = 1`),
yet `put` does not return the candidate unchanged with the store intact:
the evicted item is A, and the store afterwards contains B. -/
theorem claim_C8_counterexample :
    c8s.pq.length = c8s.capacity ∧
    mLookup c8s.m "B" = none ∧
    c8s.peekIt.t = 1 ∧ c8s.peekIt.a = 1 ∧
    (c8s.put 1 "B" (some "b") 1).2.key = "A" ∧
    (c8s.put 1 "B" (some "b") 1).2.key ≠ "B" ∧
    (c8s.put 1 "B" (some "b") 1).1 ≠ c8s ∧
    (c8s.put 1 "B" (some "b") 1).1.entry "B" = some (some "b", 1, 1) := by
  refine ⟨?_, ?_, ?_, ?_, ?_, ?_, ?_, ?_⟩ <;> decide

/-! ### C9: the metric identity -/

theorem mSum_hitMFA (m : MState) : mSum m.hitMFA = mSum m + 1 := by
  unfold mSum MState.hitMFA
  dsimp only
  omega

theorem mSum_hitLRU (m : MState) : mSum m.hitLRU = mSum m + 1 := by
  unfold mSum MState.hitLRU
  dsimp only
  omega

theorem mSum_missMFA (m : MState) : mSum m.missMFA = mSum m := rfl

theorem mSum_missLRU (m : MState) : mSum m.missLRU = mSum m := rfl

theorem mSum_missK (m : MState) (k : String) : mSum (m.missK k) = mSum m + 1 := by
  unfold mSum MState.missK
  dsimp only
  cases hs : m.store
  · dsimp only
    omega
  · dsimp only
    split
    · dsimp only
      omega
    · dsimp only
      omega

theorem mSum_evict (m : MState) (k : String) : mSum (m.evict k) = mSum m := by
  unfold mSum MState.evict
  cases hs : m.store
  · rfl
  · dsimp only
    split
    · rfl
    · rfl

theorem tick_m {α : Type} (c : Cache α) : (Cache.tickClock c).m = c.m := by
  unfold Cache.tickClock
  dsimp only
  split <;> rfl

theorem put_msum {α : Type} (c : Cache α) (k : String) (v : Option α) :
    mSum (Cache.Put c k v).m = mSum c.m := by
  unfold Cache.Put
  dsimp only
  repeat' split
  all_goals simp [mSum_evict, tick_m]

theorem get_msum {α : Type} (c : Cache α) (k : String) :
    mSum ((Cache.Get c k).2).m = mSum c.m + 1 := by
  unfold Cache.Get
  dsimp only
  repeat' split
  all_goals simp [mSum_hitMFA, mSum_hitLRU, mSum_missMFA, mSum_missLRU, mSum_missK, tick_m]

theorem runOps_msum {α : Type} (ops : List (CacheOp α)) :
    ∀ c0 : Cache α, mSum (runOps c0 ops).m = mSum c0.m + countGets ops := by
  induction ops with
  | nil =>
    intro c0
    simp [runOps, countGets]
  | cons op ops ih =>
    intro c0
    have hrun : runOps c0 (op :: ops) = runOps (execOp c0 op) ops := rfl
    rw [hrun, ih (execOp c0 op)]
    cases op with
    | get k2 =>
      show mSum ((Cache.Get c0 k2).2).m + countGets ops = _
      rw [get_msum]
      simp [countGets, List.countP_cons]
      omega
    | put k2 v2 =>
      show mSum (Cache.Put c0 k2 v2).m + countGets ops = _
      rw [put_msum]
      simp [countGets, List.countP_cons]

theorem mSum_newMetrics (n : Nat) (e : Bool) : mSum (newMetrics n e) = 0 := by
  unfold mSum newMetrics
  split <;> rfl

/-- C9: after every operation sequence on a cache built by `NewCache`,
the metric counters satisfy `HitMFA + HitLRU + Miss = number of Gets`:
each `Get` bumps exactly one of the three, and `Put` bumps none. -/
theorem claim_C9 {α : Type} (size : Int) (evict : Bool) (c0 : Cache α)
    (hnew : NewCache α size evict = some c0) (ops : List (CacheOp α)) :
    (runOps c0 ops).m.M.HitMFA + (runOps c0 ops).m.M.HitLRU + (runOps c0 ops).m.M.Miss
      = countGets ops := by
  obtain ⟨_, _, _, _, hm0⟩ := newCache_props size evict c0 hnew
  have h := runOps_msum ops c0
  rw [hm0] at h
  rw [show (runOps c0 ops).m.M.HitMFA + (runOps c0 ops).m.M.HitLRU
      + (runOps c0 ops).m.M.Miss = mSum (runOps c0 ops).m from rfl, h,
    mSum_newMetrics]
  omega

/-- Witness instantiating `claim_C9` on the capacity-2 cache with a
mixed operation sequence containing two `Get`s. -/
theorem claim_C9_witness :
    (runOps cacheS2 c1ops).m.M.HitMFA + (runOps cacheS2 c1ops).m.M.HitLRU
      + (runOps cacheS2 c1ops).m.M.Miss = countGets c1ops :=
  claim_C9 2 false cacheS2 rfl c1ops

end DotF
